import Mathlib

/-!
Verification of the tile-based software rasterizer in `src/main.cpp`
(CU-Production/clirasterizer).

The numeric C++ code works on IEEE `float`; this development embeds it in
exact rational arithmetic (`ℚ`), the idealized semantics the specification's
algebraic statements refer to.  Machine `int` values are embedded as `ℤ`
(or as `ℕ` where the source value is provably nonnegative, e.g. tile
coordinates produced by `tile_col * TILE_SIZE`).  The only irrational
operation in the pipeline, the float square root used by `HMM_NormV3`
(HandmadeMath, a vendored header that is not part of `src/`), is abstracted
as an explicit function parameter `sq : ℚ → ℚ`; it is only ever used inside
the per-fragment shading computation and never on a control path.

`std::vector` tile scratch buffers are modelled as total index functions
(`ℤ → _`) updated with `Function.update`; the framebuffer's two grids are
modelled as `List`s so that length/allocation facts are expressible.
-/

namespace CliRasterizer

/-- Color with three 8-bit channels, `struct Color` (main.cpp:111). -/
structure Color where
  r : ℕ
  g : ℕ
  b : ℕ
deriving DecidableEq, Repr

/-- Saturating channel scale: `std::clamp(c * f, 0.0f, 255.0f)` followed by
truncation to `uint8_t` (main.cpp:117-123).  The clamped value is
nonnegative, so C truncation toward zero is the floor. -/
def satChannel (c : ℕ) (f : ℚ) : ℕ :=
  (Int.toNat ⌊max 0 (min ((c : ℚ) * f) 255)⌋)

/-- Color `operator*` with a scalar (main.cpp:117). -/
def Color.scale (c : Color) (f : ℚ) : Color :=
  ⟨satChannel c.r f, satChannel c.g f, satChannel c.b f⟩

/-- Background clear color `(20, 20, 30)` (main.cpp:151, 559). -/
def bgColor : Color := ⟨20, 20, 30⟩

/-- Depth-buffer clear value `std::numeric_limits<float>::max()`
(main.cpp:152, 560), i.e. `(2 - 2⁻²³) · 2¹²⁷` exactly. -/
def maxDepth : ℚ := 2 ^ 128 - 2 ^ 104

/-- 2D vector (`HMM_Vec2`). -/
structure Vec2 where
  x : ℚ
  y : ℚ
deriving DecidableEq, Repr

/-- 3D vector (`HMM_Vec3`). -/
structure Vec3 where
  x : ℚ
  y : ℚ
  z : ℚ
deriving DecidableEq, Repr

/-- 4D vector (`HMM_Vec4`). -/
structure Vec4 where
  x : ℚ
  y : ℚ
  z : ℚ
  w : ℚ
deriving DecidableEq, Repr

/-- Dot product of 3D vectors (`HMM_DotV3`). -/
def dotV3 (a b : Vec3) : ℚ := a.x * b.x + a.y * b.y + a.z * b.z

/-- Modelled from the spec: `HMM_NormV3` from the vendored HandmadeMath
header (not under `src/`); the spec says "Normalize the interpolated
normal".  It divides the vector by its length; the floating-point square
root is abstracted as the parameter `sq`. -/
def normV3 (sq : ℚ → ℚ) (v : Vec3) : Vec3 :=
  let len := sq (dotV3 v v)
  ⟨v.x / len, v.y / len, v.z / len⟩

/-- Fixed light direction `HMM_NormV3(HMM_V3(0.5f, 1.0f, 0.8f))`
(main.cpp:394). -/
def lightDir (sq : ℚ → ℚ) : Vec3 := normV3 sq ⟨1/2, 1, 4/5⟩

/-- Truncation toward zero, the semantics of C `static_cast<int>` on a
nonnegative-or-negative real value. -/
def qtrunc (q : ℚ) : ℤ := if 0 ≤ q then ⌊q⌋ else -⌊-q⌋

/-- Texture: width, height, packed RGB8 bytes, loaded flag
(`class Texture`, main.cpp:203-207). -/
structure Texture where
  width : ℕ
  height : ℕ
  data : List ℕ
  loaded : Bool
deriving DecidableEq, Repr

/-- Point sampling with wrap addressing, `Texture::sample`
(main.cpp:221-236). -/
def Texture.sample (t : Texture) (u v : ℚ) : Color :=
  if t.loaded = false then ⟨200, 200, 200⟩ else
  let u' := u - ⌊u⌋
  let v' := v - ⌊v⌋
  let x := qtrunc (u' * ((t.width : ℚ) - 1))
  let y := qtrunc ((1 - v') * ((t.height : ℚ) - 1))
  let x' := (max 0 (min x ((t.width : ℤ) - 1))).toNat
  let y' := (max 0 (min y ((t.height : ℤ) - 1))).toNat
  let idx := (y' * t.width + x') * 3
  ⟨t.data.getD idx 0, t.data.getD (idx + 1) 0, t.data.getD (idx + 2) 0⟩

/-- Framebuffer with color and depth grids (`class Framebuffer`,
main.cpp:138-143). -/
@[ext]
structure Framebuffer where
  width : ℕ
  height : ℕ
  color_buffer : List Color
  depth_buffer : List ℚ
deriving DecidableEq, Repr

/-- Well-formedness maintained by the C++ class: both grids have exactly
`width * height` cells. -/
def Framebuffer.wf (fb : Framebuffer) : Prop :=
  fb.color_buffer.length = fb.width * fb.height ∧
  fb.depth_buffer.length = fb.width * fb.height

instance (fb : Framebuffer) : Decidable fb.wf := by
  unfold Framebuffer.wf; infer_instance

/-- Framebuffer `clear()` (main.cpp:150-159): every color cell becomes the
background color and every depth cell `FLT_MAX`.  The C++ loop writes
each of the `width*height` cells of grids that (by construction) have
exactly that length, so the result is the replicated grids. -/
def Framebuffer.clear (fb : Framebuffer) : Framebuffer :=
  { fb with
    color_buffer := List.replicate (fb.width * fb.height) bgColor
    depth_buffer := List.replicate (fb.width * fb.height) maxDepth }

/-- Embedding of `std::vector::resize`: keep the first `n` elements, pad
with the default value. -/
def listResize {α : Type} (l : List α) (n : ℕ) (d : α) : List α :=
  l.take n ++ List.replicate (n - l.length) d

/-- Framebuffer `resize` (main.cpp:189-196): early-returns when the
dimensions are unchanged, otherwise resizes both vectors and clears. -/
def Framebuffer.resize (fb : Framebuffer) (w h : ℕ) : Framebuffer :=
  if w = fb.width ∧ h = fb.height then fb
  else
    Framebuffer.clear
      { width := w, height := h
        color_buffer := listResize fb.color_buffer (w * h) ⟨0, 0, 0⟩
        depth_buffer := listResize fb.depth_buffer (w * h) 0 }

/-- Read accessor `Framebuffer::get_pixel` (main.cpp:171-174):
out-of-bounds reads return black. -/
def Framebuffer.get_pixel (fb : Framebuffer) (x y : ℤ) : Color :=
  if x < 0 ∨ (fb.width : ℤ) ≤ x ∨ y < 0 ∨ (fb.height : ℤ) ≤ y then ⟨0, 0, 0⟩
  else fb.color_buffer.getD (y * fb.width + x).toNat ⟨0, 0, 0⟩

/-- Pre-processed screen-space triangle (`struct ScreenTriangle`,
main.cpp:377-385). -/
structure ScreenTriangle where
  screen_verts : Fin 3 → Vec3
  clip_verts : Fin 3 → Vec4
  texcoords : Fin 3 → Vec2
  normals : Fin 3 → Vec3
  area : ℚ
  min_x : ℤ
  max_x : ℤ
  min_y : ℤ
  max_y : ℤ
  valid : Bool

/-- Signed edge function (the lambda `edge` in main.cpp:442-444 and
477-479). -/
def edgeFn (a b : Vec3) (px py : ℚ) : ℚ :=
  (px - a.x) * (b.y - a.y) - (py - a.y) * (b.x - a.x)

/-- Perspective divide and viewport mapping of one clip-space vertex
(main.cpp:421-427). -/
def toScreen (W H : ℕ) (c : Vec4) : Vec3 :=
  { x := (c.x / c.w + 1) * (1/2) * W
  , y := (1 - c.y / c.w) * (1/2) * H
  , z := c.z / c.w }

/-- Signed screen-space area of a triangle given its three clip vertices
(main.cpp:445-446). -/
def screenArea (W H : ℕ) (clip : Fin 3 → Vec4) : ℚ :=
  edgeFn (toScreen W H (clip 0)) (toScreen W H (clip 1))
    (toScreen W H (clip 2)).x (toScreen W H (clip 2)).y

/-- Triangle setup, `Rasterizer::prepare_triangle` (main.cpp:402-453):
perspective divide, bounding box clipped to the framebuffer, signed area,
and the two invalidation tests (`w ≤ 0.001`, `|area| < 0.001`). -/
def prepare_triangle (W H : ℕ) (clip : Fin 3 → Vec4)
    (tex : Fin 3 → Vec2) (nor : Fin 3 → Vec3) : ScreenTriangle :=
  if (clip 0).w ≤ 0.001 ∨ (clip 1).w ≤ 0.001 ∨ (clip 2).w ≤ 0.001 then
    { screen_verts := fun _ => ⟨0, 0, 0⟩, clip_verts := clip
      texcoords := tex, normals := nor, area := 0
      min_x := 0, max_x := 0, min_y := 0, max_y := 0, valid := false }
  else
    let sv : Fin 3 → Vec3 := fun i => toScreen W H (clip i)
    let minx : ℚ := min (min (sv 0).x (sv 1).x) (sv 2).x
    let maxx : ℚ := max (max (sv 0).x (sv 1).x) (sv 2).x
    let miny : ℚ := min (min (sv 0).y (sv 1).y) (sv 2).y
    let maxy : ℚ := max (max (sv 0).y (sv 1).y) (sv 2).y
    let area := edgeFn (sv 0) (sv 1) (sv 2).x (sv 2).y
    { screen_verts := sv, clip_verts := clip
      texcoords := tex, normals := nor, area := area
      min_x := max 0 ⌊minx⌋
      max_x := min ((W : ℤ) - 1) ⌈maxx⌉
      min_y := max 0 ⌊miny⌋
      max_y := min ((H : ℤ) - 1) ⌈maxy⌉
      valid := !decide (|area| < 0.001) }

/-! ## Tile rasterizer -/

/-- Tile size constant (main.cpp:374). -/
def TILE_SIZE : ℕ := 16

/-- Pixel-center abscissa `x + 0.5f` (main.cpp:485-486). -/
def pixCenter (x : ℤ) : ℚ := (x : ℚ) + 1/2

/-- Edge value `w0` at a pixel center (main.cpp:488). -/
def fragW0 (tri : ScreenTriangle) (x y : ℤ) : ℚ :=
  edgeFn (tri.screen_verts 1) (tri.screen_verts 2) (pixCenter x) (pixCenter y)

/-- Edge value `w1` at a pixel center (main.cpp:489). -/
def fragW1 (tri : ScreenTriangle) (x y : ℤ) : ℚ :=
  edgeFn (tri.screen_verts 2) (tri.screen_verts 0) (pixCenter x) (pixCenter y)

/-- Edge value `w2` at a pixel center (main.cpp:490). -/
def fragW2 (tri : ScreenTriangle) (x y : ℤ) : ℚ :=
  edgeFn (tri.screen_verts 0) (tri.screen_verts 1) (pixCenter x) (pixCenter y)

/-- Coverage test (main.cpp:492): all three edge values nonnegative or all
three nonpositive. -/
def covers (tri : ScreenTriangle) (x y : ℤ) : Prop :=
  (0 ≤ fragW0 tri x y ∧ 0 ≤ fragW1 tri x y ∧ 0 ≤ fragW2 tri x y) ∨
  (fragW0 tri x y ≤ 0 ∧ fragW1 tri x y ≤ 0 ∧ fragW2 tri x y ≤ 0)

instance (tri : ScreenTriangle) (x y : ℤ) : Decidable (covers tri x y) := by
  unfold covers; infer_instance

/-- Barycentric coordinate `w0 * inv_area` (main.cpp:481, 495). -/
def fragB0 (tri : ScreenTriangle) (x y : ℤ) : ℚ := fragW0 tri x y * (1 / tri.area)

/-- Barycentric coordinate `w1 * inv_area` (main.cpp:496). -/
def fragB1 (tri : ScreenTriangle) (x y : ℤ) : ℚ := fragW1 tri x y * (1 / tri.area)

/-- Barycentric coordinate `w2 * inv_area` (main.cpp:497). -/
def fragB2 (tri : ScreenTriangle) (x y : ℤ) : ℚ := fragW2 tri x y * (1 / tri.area)

/-- Interpolated depth at a pixel center (main.cpp:499). -/
def fragDepth (tri : ScreenTriangle) (x y : ℤ) : ℚ :=
  fragB0 tri x y * (tri.screen_verts 0).z + fragB1 tri x y * (tri.screen_verts 1).z +
    fragB2 tri x y * (tri.screen_verts 2).z

/-- Perspective-correct interpolation of one attribute (main.cpp:512-525):
`(Σ b_j * a_j * (1/w_j)) * (1 / Σ b_j * (1/w_j))`. -/
def perspInterp (tri : ScreenTriangle) (b0 b1 b2 a0 a1 a2 : ℚ) : ℚ :=
  let inv_w0 := 1 / (tri.clip_verts 0).w
  let inv_w1 := 1 / (tri.clip_verts 1).w
  let inv_w2 := 1 / (tri.clip_verts 2).w
  let inv_w := b0 * inv_w0 + b1 * inv_w1 + b2 * inv_w2
  let corr := 1 / inv_w
  (b0 * a0 * inv_w0 + b1 * a1 * inv_w1 + b2 * a2 * inv_w2) * corr

/-- Plain affine barycentric interpolation, the formula the specification's
perspective-correct identity compares against. -/
def affineInterp (b0 b1 b2 a0 a1 a2 : ℚ) : ℚ := b0 * a0 + b1 * a1 + b2 * a2

/-- Fragment shading (main.cpp:511-533): perspective-correct UV and normal
interpolation, normalization, texture sampling (neutral gray when no
texture is bound), and lambertian lighting `0.3 + 0.7 * max 0 (n·L)`. -/
def shadePixel (sq : ℚ → ℚ) (tex : Option Texture) (tri : ScreenTriangle)
    (b0 b1 b2 : ℚ) : Color :=
  let uvX := perspInterp tri b0 b1 b2 (tri.texcoords 0).x (tri.texcoords 1).x (tri.texcoords 2).x
  let uvY := perspInterp tri b0 b1 b2 (tri.texcoords 0).y (tri.texcoords 1).y (tri.texcoords 2).y
  let nrm := normV3 sq
    ⟨perspInterp tri b0 b1 b2 (tri.normals 0).x (tri.normals 1).x (tri.normals 2).x,
     perspInterp tri b0 b1 b2 (tri.normals 0).y (tri.normals 1).y (tri.normals 2).y,
     perspInterp tri b0 b1 b2 (tri.normals 0).z (tri.normals 1).z (tri.normals 2).z⟩
  let base : Color := match tex with
    | some t => t.sample uvX uvY
    | none => ⟨200, 200, 200⟩
  let ndotl := max 0 (dotV3 nrm (lightDir sq))
  let lighting := 3/10 + 7/10 * ndotl
  Color.scale base lighting

/-- Effect of the per-pixel loop body (main.cpp:484-534) on the pair
(tile color cell, tile depth cell) of the pixel being visited: reject on
coverage, depth range `[-1,1]`, and the strict depth test, otherwise write
the shaded color and the interpolated depth. -/
def pixBody (sq : ℚ → ℚ) (tex : Option Texture) (tri : ScreenTriangle)
    (x y : ℤ) (s : Color × ℚ) : Color × ℚ :=
  if ¬ covers tri x y then s
  else
    let depth := fragDepth tri x y
    if depth < -1 ∨ 1 < depth then s
    else if s.2 ≤ depth then s
    else (shadePixel sq tex tri (fragB0 tri x y) (fragB1 tri x y) (fragB2 tri x y), depth)

/-- Tile-local color and depth scratch buffers (main.cpp:559-560), modelled
as total index functions. -/
structure TileBuf where
  colors : ℤ → Color
  depths : ℤ → ℚ

/-- Fresh tile buffers: color pre-filled with the clear background, depth
with `FLT_MAX` (main.cpp:559-560). -/
def initTileBuf : TileBuf := ⟨fun _ => bgColor, fun _ => maxDepth⟩

/-- One iteration of the pixel loop (main.cpp:484-534): applies `pixBody`
to the tile-local cell of pixel `(x, y)`. -/
def rasterPixel (sq : ℚ → ℚ) (tex : Option Texture) (tri : ScreenTriangle)
    (tile_x0 tile_y0 tile_width x y : ℤ) (tb : TileBuf) : TileBuf :=
  let li := (y - tile_y0) * tile_width + (x - tile_x0)
  let s := pixBody sq tex tri x y (tb.colors li, tb.depths li)
  ⟨Function.update tb.colors li s.1, Function.update tb.depths li s.2⟩

/-- Inclusive integer interval `[lo, hi]`, the index list of a C loop
`for (i = lo; i <= hi; i++)`. -/
def intRange (lo hi : ℤ) : List ℤ :=
  (List.range (hi + 1 - lo).toNat).map (fun (i : ℕ) => lo + (i : ℤ))

/-- Rasterize one triangle into a tile,
`Rasterizer::rasterize_triangle_in_tile` (main.cpp:456-536): skip invalid
triangles, skip when the bounding box misses the tile, otherwise scan the
clamped overlap rectangle. -/
def rasterize_triangle_in_tile (sq : ℚ → ℚ) (tex : Option Texture)
    (tri : ScreenTriangle) (tile_x0 tile_y0 tile_x1 tile_y1 tile_width : ℤ)
    (tb : TileBuf) : TileBuf :=
  if tri.valid = false then tb
  else if tri.max_x < tile_x0 ∨ tri.min_x > tile_x1 ∨
      tri.max_y < tile_y0 ∨ tri.min_y > tile_y1 then tb
  else
    (intRange (max tri.min_y tile_y0) (min tri.max_y tile_y1)).foldl (fun tb1 y =>
      (intRange (max tri.min_x tile_x0) (min tri.max_x tile_x1)).foldl (fun tb2 x =>
        rasterPixel sq tex tri tile_x0 tile_y0 tile_width x y tb2) tb1) tb

/-- Number of tile columns `⌈W/T⌉` (main.cpp:540). -/
def tilesX (W T : ℕ) : ℕ := (W + T - 1) / T

/-- Number of tile rows `⌈H/T⌉` (main.cpp:541). -/
def tilesY (H T : ℕ) : ℕ := (H + T - 1) / T

/-- Total tile count (main.cpp:542). -/
def numTiles (W H T : ℕ) : ℕ := tilesX W T * tilesY H T

/-- Left pixel column of a tile, `(tile_idx % tiles_x) * TILE_SIZE`
(main.cpp:546,549). -/
def tileX0 (W T tidx : ℕ) : ℕ := (tidx % tilesX W T) * T

/-- Top pixel row of a tile, `(tile_idx / tiles_x) * TILE_SIZE`
(main.cpp:547,550). -/
def tileY0 (W T tidx : ℕ) : ℕ := (tidx / tilesX W T) * T

/-- Right (inclusive) pixel column of a tile, clamped to the framebuffer
(main.cpp:551). -/
def tileX1 (W T tidx : ℕ) : ℕ := min (tileX0 W T tidx + T - 1) (W - 1)

/-- Bottom (inclusive) pixel row of a tile, clamped to the framebuffer
(main.cpp:552). -/
def tileY1 (W H T tidx : ℕ) : ℕ := min (tileY0 W T tidx + T - 1) (H - 1)

/-- Rasterize the whole triangle list into one tile's scratch buffers
(main.cpp:563-566). -/
def tileFold (sq : ℚ → ℚ) (tex : Option Texture) (tris : List ScreenTriangle)
    (tx0 ty0 tx1 ty1 tw : ℤ) : TileBuf :=
  tris.foldl (fun b tri => rasterize_triangle_in_tile sq tex tri tx0 ty0 tx1 ty1 tw b)
    initTileBuf

/-- Copy one tile's scratch buffers into the global framebuffer
(main.cpp:569-579). -/
def blitTile (W tx0 ty0 tw th : ℕ) (tb : TileBuf) (fb : Framebuffer) : Framebuffer :=
  (List.range th).foldl (fun fb1 ly =>
    (List.range tw).foldl (fun fb2 lx =>
      { fb2 with
        color_buffer :=
          fb2.color_buffer.set ((ty0 + ly) * W + (tx0 + lx))
            (tb.colors ((ly : ℤ) * (tw : ℤ) + (lx : ℤ)))
        depth_buffer :=
          fb2.depth_buffer.set ((ty0 + ly) * W + (tx0 + lx))
            (tb.depths ((ly : ℤ) * (tw : ℤ) + (lx : ℤ))) }) fb1) fb

/-- Work done for a single tile index (the body of the `parallel_for` in
main.cpp:545-580). -/
def renderTile (sq : ℚ → ℚ) (tex : Option Texture) (tris : List ScreenTriangle)
    (W H T tidx : ℕ) (fb : Framebuffer) : Framebuffer :=
  let tx0 := tileX0 W T tidx
  let ty0 := tileY0 W T tidx
  let tx1 := tileX1 W T tidx
  let ty1 := tileY1 W H T tidx
  let tw := tx1 - tx0 + 1
  let th := ty1 - ty0 + 1
  blitTile W tx0 ty0 tw th
    (tileFold sq tex tris (tx0 : ℤ) (ty0 : ℤ) (tx1 : ℤ) (ty1 : ℤ) (tw : ℤ)) fb

/-- Tile-parallel rendering, `Rasterizer::render_tiled` (main.cpp:539-581),
generalized over the tile edge length `T`.  The `parallel_for` over tiles
is embedded as a fold; tiles write disjoint framebuffer regions, so the
serial order is the parallel semantics. -/
def render_tiled (sq : ℚ → ℚ) (tex : Option Texture) (T : ℕ)
    (tris : List ScreenTriangle) (fb : Framebuffer) : Framebuffer :=
  (List.range (numTiles fb.width fb.height T)).foldl
    (fun fb1 tidx => renderTile sq tex tris fb.width fb.height T tidx fb1) fb

/-! ## Specification-level per-pixel view of rasterization -/

/-- Bounding-box membership of a pixel. -/
def bboxContains (tri : ScreenTriangle) (x y : ℤ) : Prop :=
  tri.min_x ≤ x ∧ x ≤ tri.max_x ∧ tri.min_y ≤ y ∧ y ≤ tri.max_y

instance (tri : ScreenTriangle) (x y : ℤ) : Decidable (bboxContains tri x y) := by
  unfold bboxContains; infer_instance

/-- Effect of one triangle on the (color, depth) state of a fixed in-tile
pixel: invalid triangles and pixels outside the triangle's bounding box
leave the state unchanged, otherwise the per-pixel loop body runs. -/
def pixStep (sq : ℚ → ℚ) (tex : Option Texture) (x y : ℤ) (s : Color × ℚ)
    (tri : ScreenTriangle) : Color × ℚ :=
  if tri.valid = true ∧ bboxContains tri x y then pixBody sq tex tri x y s else s

/-- Final (color, depth) of a pixel after all triangles are processed in
list order, starting from the cleared tile state. -/
def pixelResult (sq : ℚ → ℚ) (tex : Option Texture) (tris : List ScreenTriangle)
    (x y : ℤ) : Color × ℚ :=
  tris.foldl (pixStep sq tex x y) (bgColor, maxDepth)

/-- Fragment acceptance as the specification states it: a valid triangle
whose coverage test accepts the pixel center and whose interpolated depth
lies in `[-1, 1]`. -/
def acceptsFrag (tri : ScreenTriangle) (x y : ℤ) : Prop :=
  tri.valid = true ∧ covers tri x y ∧ -1 ≤ fragDepth tri x y ∧ fragDepth tri x y ≤ 1

instance (tri : ScreenTriangle) (x y : ℤ) : Decidable (acceptsFrag tri x y) := by
  unfold acceptsFrag; infer_instance

/-- Depths of all fragments accepted at a pixel, in triangle list order. -/
def acceptedDepths (tris : List ScreenTriangle) (x y : ℤ) : List ℚ :=
  (tris.filter fun tri => decide (acceptsFrag tri x y)).map fun tri => fragDepth tri x y

/-! ## Terminal presentation -/

/-- ASCII bytes of the decimal representation of a channel value, the
effect of `snprintf("%d", ...)` (main.cpp:608). -/
def digitsBytes (n : ℕ) : List ℕ := (Nat.repr n).toList.map Char.toNat

/-- Cursor-home escape `"\033[H"` (main.cpp:597). -/
def cursorHome : List ℕ := [27, 91, 72]

/-- Style-reset escape plus newline `"\033[0m\n"` (main.cpp:613). -/
def resetNl : List ℕ := [27, 91, 48, 109, 10]

/-- UTF-8 bytes `E2 96 80` of U+2580, the upper-half-block glyph
(main.cpp:611). -/
def halfBlock : List ℕ := [0xE2, 0x96, 0x80]

/-- Foreground 24-bit color escape `"\033[38;2;R;G;Bm"` (main.cpp:608). -/
def fgEscape (c : Color) : List ℕ :=
  [27, 91, 51, 56, 59, 50, 59] ++ digitsBytes c.r ++ [59] ++ digitsBytes c.g ++
    [59] ++ digitsBytes c.b ++ [109]

/-- Background 24-bit color escape `"\033[48;2;R;G;Bm"` (main.cpp:608). -/
def bgEscape (c : Color) : List ℕ :=
  [27, 91, 52, 56, 59, 50, 59] ++ digitsBytes c.r ++ [59] ++ digitsBytes c.g ++
    [59] ++ digitsBytes c.b ++ [109]

/-- Bytes emitted for one row pair: the inner column loop of
`TerminalRenderer::render` (main.cpp:601-613) followed by the reset escape
and newline. -/
def rowPairBytes (fb : Framebuffer) (y : ℕ) : List ℕ :=
  ((List.range fb.width).flatMap fun x =>
    let top := fb.get_pixel (x : ℤ) (y : ℤ)
    let bottom := if y + 1 < fb.height then fb.get_pixel (x : ℤ) ((y : ℤ) + 1)
      else Color.mk 0 0 0
    fgEscape top ++ bgEscape bottom ++ halfBlock) ++ resetNl

/-- The row loop `for (y = 0; y < fb.height; y += 2)` of
`TerminalRenderer::render` (main.cpp:600). -/
def renderLoop (fb : Framebuffer) (y : ℕ) : List ℕ :=
  if y < fb.height then rowPairBytes fb y ++ renderLoop fb (y + 2) else []
termination_by fb.height - y
decreasing_by omega

/-- Full byte stream assembled by `TerminalRenderer::render`
(main.cpp:592-616); the C++ accumulates it into one `std::string` and
writes it with a single flush. -/
def terminalRender (fb : Framebuffer) : List ℕ := cursorHome ++ renderLoop fb 0

/-- Color cell of the framebuffer grid at `(x, y)`, as the specification
describes it. -/
def specCell (fb : Framebuffer) (x y : ℕ) : Color :=
  fb.color_buffer.getD (y * fb.width + x) ⟨0, 0, 0⟩

/-- Modelled from the spec: the bytes of one row pair `(y, y+1)` — for each
column a foreground escape with the top pixel, a background escape with
the bottom pixel (black when `y+1` is out of range), the half-block glyph,
then the reset escape and a newline. -/
def specRowPair (fb : Framebuffer) (y : ℕ) : List ℕ :=
  ((List.range fb.width).flatMap fun x =>
    fgEscape (specCell fb x y) ++
      bgEscape (if y + 1 < fb.height then specCell fb x (y + 1) else Color.mk 0 0 0) ++
      halfBlock) ++ resetNl

/-- Modelled from the spec: the cursor-home escape followed by the encoded
row pairs `(0,1), (2,3), ...`. -/
def specTerminalBytes (fb : Framebuffer) : List ℕ :=
  cursorHome ++ (List.range ((fb.height + 1) / 2)).flatMap fun i => specRowPair fb (2 * i)

/-- Observed (color, depth) pair of one tile-buffer cell. -/
def tbRead (tb : TileBuf) (li : ℤ) : Color × ℚ := (tb.colors li, tb.depths li)

/-- Observed (color, depth) pair of one framebuffer cell. -/
def fbRead (fb : Framebuffer) (i : ℕ) : Color × ℚ :=
  (fb.color_buffer.getD i ⟨0, 0, 0⟩, fb.depth_buffer.getD i 0)

/-! ## Generic fold lemmas

Reading a single cell through a fold of cell-local updates: if every step
preserves an invariant, steps at other indices do not change the observed
cell, and the unique step at the observed index acts as `g` on it, then
the whole fold acts as `g` (or as the identity when the index never
occurs). -/

section FoldHelpers

variable {α β γ : Type}

theorem foldl_preserves (f : β → α → β) (P : β → Prop) :
    ∀ (l : List α) (b : β), (∀ b a, P b → a ∈ l → P (f b a)) → P b →
      P (l.foldl f b) := by
  intro l
  induction l with
  | nil => intro b _ hb; exact hb
  | cons a l ih =>
    intro b hstep hb
    exact ih (f b a)
      (fun b' a' hb' ha' => hstep b' a' hb' (List.mem_cons_of_mem _ ha'))
      (hstep b a hb (List.mem_cons_self _ _))

theorem foldl_read_pres (f : β → α → β) (read : β → γ) (P : β → Prop) :
    ∀ (l : List α) (b : β), (∀ b a, P b → a ∈ l → P (f b a)) →
      (∀ b a, P b → a ∈ l → read (f b a) = read b) → P b →
      read (l.foldl f b) = read b := by
  intro l
  induction l with
  | nil => intro b _ _ _; rfl
  | cons a l ih =>
    intro b hP hr hb
    have h1 : read (f b a) = read b := hr b a hb (List.mem_cons_self _ _)
    have h2 := ih (f b a)
      (fun b' a' hb' ha' => hP b' a' hb' (List.mem_cons_of_mem _ ha'))
      (fun b' a' hb' ha' => hr b' a' hb' (List.mem_cons_of_mem _ ha'))
      (hP b a hb (List.mem_cons_self _ _))
    rw [List.foldl_cons, h2, h1]

theorem foldl_read_char [DecidableEq α] (f : β → α → β) (read : β → γ) (g : γ → γ)
    (P : β → Prop) (a0 : α) :
    ∀ (l : List α) (b : β), l.Nodup → (∀ b a, P b → P (f b a)) →
      (∀ b a, P b → a ∈ l → a ≠ a0 → read (f b a) = read b) →
      (∀ b, P b → read (f b a0) = g (read b)) → P b →
      read (l.foldl f b) = if a0 ∈ l then g (read b) else read b := by
  intro l
  induction l with
  | nil => intro b _ _ _ _ _; simp
  | cons a l ih =>
    intro b hnd hP hne hx hb
    rcases eq_or_ne a a0 with rfl | hne'
    · have hnotin : a ∉ l := (List.nodup_cons.mp hnd).1
      have hpres : read (List.foldl f (f b a) l) = read (f b a) := by
        refine foldl_read_pres f read P l (f b a)
          (fun b' a' hb' _ => hP b' a' hb')
          (fun b' a' hb' ha' => hne b' a' hb' (List.mem_cons_of_mem _ ha')
            (fun he => hnotin (he ▸ ha'))) ?_
        exact hP b a hb
      rw [List.foldl_cons, hpres, hx b hb, if_pos (List.mem_cons_self _ _)]
    · have hread : read (f b a) = read b := hne b a hb (List.mem_cons_self _ _) hne'
      have hrec := ih (f b a) (List.nodup_cons.mp hnd).2 hP
        (fun b' a' hb' ha' => hne b' a' hb' (List.mem_cons_of_mem _ ha')) hx (hP b a hb)
      rw [List.foldl_cons, hrec, hread]
      by_cases hmem : a0 ∈ l
      · rw [if_pos hmem, if_pos (List.mem_cons_of_mem _ hmem)]
      · rw [if_neg hmem, if_neg (by
          intro hc
          rcases List.mem_cons.mp hc with h | h
          · exact hne' h.symm
          · exact hmem h)]

end FoldHelpers

/-! ## Interval and index lemmas -/

theorem mem_intRange {lo hi a : ℤ} : a ∈ intRange lo hi ↔ lo ≤ a ∧ a ≤ hi := by
  unfold intRange
  simp only [List.mem_map, List.mem_range]
  constructor
  · rintro ⟨i, hi', rfl⟩
    omega
  · rintro ⟨h1, h2⟩
    exact ⟨(a - lo).toNat, by omega, by omega⟩

theorem nodup_intRange (lo hi : ℤ) : (intRange lo hi).Nodup := by
  unfold intRange
  refine (List.nodup_range _).map ?_
  intro i j hij
  dsimp only at hij
  omega

/-- Uniqueness of the row-major decomposition `row * W + col` for columns
within `[0, W)`. -/
theorem rowcol_inj {a b c d W : ℤ} (hb0 : 0 ≤ b) (hbW : b < W) (hd0 : 0 ≤ d)
    (hdW : d < W) (heq : a * W + b = c * W + d) : a = c ∧ b = d := by
  have hbd : b = d := by
    have h1 : (b + W * a) % W = b % W := Int.add_mul_emod_self_left b W a
    have h2 : (d + W * c) % W = d % W := Int.add_mul_emod_self_left d W c
    have hb' : b % W = b := Int.emod_eq_of_lt hb0 hbW
    have hd' : d % W = d := Int.emod_eq_of_lt hd0 hdW
    have : b + W * a = d + W * c := by linarith [heq]
    calc b = (b + W * a) % W := by rw [h1, hb']
    _ = (d + W * c) % W := by rw [this]
    _ = d := by rw [h2, hd']
  refine ⟨?_, hbd⟩
  have hW : W ≠ 0 := by omega
  have : a * W = c * W := by omega
  exact mul_right_cancel₀ hW this

/-! ## Per-pixel characterization of one triangle in one tile -/

/-- Reading the tile-cell of a fixed pixel through `rasterPixel` at the
same pixel applies the per-pixel body. -/
theorem rasterPixel_read_self (sq : ℚ → ℚ) (tex : Option Texture)
    (tri : ScreenTriangle) (tx0 ty0 tw x y : ℤ) (tb : TileBuf) :
    ((rasterPixel sq tex tri tx0 ty0 tw x y tb).colors ((y - ty0) * tw + (x - tx0)),
     (rasterPixel sq tex tri tx0 ty0 tw x y tb).depths ((y - ty0) * tw + (x - tx0))) =
      pixBody sq tex tri x y
        (tb.colors ((y - ty0) * tw + (x - tx0)), tb.depths ((y - ty0) * tw + (x - tx0))) := by
  unfold rasterPixel
  simp [Function.update_same]

/-- `rasterPixel` at a different slot leaves the observed tile-cell
unchanged. -/
theorem rasterPixel_read_ne (sq : ℚ → ℚ) (tex : Option Texture)
    (tri : ScreenTriangle) (tx0 ty0 tw x y li : ℤ) (tb : TileBuf)
    (hne : (y - ty0) * tw + (x - tx0) ≠ li) :
    ((rasterPixel sq tex tri tx0 ty0 tw x y tb).colors li,
     (rasterPixel sq tex tri tx0 ty0 tw x y tb).depths li) =
      (tb.colors li, tb.depths li) := by
  unfold rasterPixel
  simp [Function.update_noteq (Ne.symm hne)]

theorem getD_set_self {α : Type} {l : List α} {i : ℕ} {a d : α} (h : i < l.length) :
    (l.set i a).getD i d = a := by
  rw [List.getD_eq_getElem?_getD, List.getElem?_set_self h]
  rfl

theorem getD_set_ne {α : Type} {l : List α} {i j : ℕ} {a d : α} (h : i ≠ j) :
    (l.set i a).getD j d = l.getD j d := by
  rw [List.getD_eq_getElem?_getD, List.getElem?_set_ne h, ← List.getD_eq_getElem?_getD]

/-- Effect of rasterizing one row of the overlap rectangle on the observed
cell of pixel `(x, y)`: only the visit of `(x, y)` itself can change it,
and it applies the per-pixel body. -/
theorem rasterRow_read (sq : ℚ → ℚ) (tex : Option Texture) (tri : ScreenTriangle)
    (tx0 ty0 tx1 tw x y y' xlo xhi : ℤ) (tb : TileBuf)
    (htw : tw = tx1 - tx0 + 1) (hx0 : tx0 ≤ x) (hx1 : x ≤ tx1)
    (hxlo : tx0 ≤ xlo) (hxhi : xhi ≤ tx1) :
    tbRead ((intRange xlo xhi).foldl
        (fun tb2 x' => rasterPixel sq tex tri tx0 ty0 tw x' y' tb2) tb)
      ((y - ty0) * tw + (x - tx0)) =
    if y' = y ∧ xlo ≤ x ∧ x ≤ xhi then
      pixBody sq tex tri x y (tbRead tb ((y - ty0) * tw + (x - tx0)))
    else tbRead tb ((y - ty0) * tw + (x - tx0)) := by
  rcases eq_or_ne y' y with rfl | hyy
  · have hchar := foldl_read_char
      (fun tb2 x' => rasterPixel sq tex tri tx0 ty0 tw x' y' tb2)
      (fun tb2 => tbRead tb2 ((y' - ty0) * tw + (x - tx0)))
      (pixBody sq tex tri x y') (fun _ => True) x (intRange xlo xhi) tb
      (nodup_intRange _ _) (fun _ _ _ => trivial)
      (fun b a _ _ ha => by
        have : (y' - ty0) * tw + (a - tx0) ≠ (y' - ty0) * tw + (x - tx0) := by omega
        exact rasterPixel_read_ne sq tex tri tx0 ty0 tw a y' _ b this)
      (fun b _ => rasterPixel_read_self sq tex tri tx0 ty0 tw x y' b) trivial
    dsimp only at hchar
    rw [hchar]
    by_cases hmem : xlo ≤ x ∧ x ≤ xhi
    · rw [if_pos (mem_intRange.mpr hmem), if_pos ⟨rfl, hmem⟩]
    · rw [if_neg (fun hc => hmem (mem_intRange.mp hc)),
        if_neg (fun hc => hmem hc.2)]
  · have hpres := foldl_read_pres
      (fun tb2 x' => rasterPixel sq tex tri tx0 ty0 tw x' y' tb2)
      (fun tb2 => tbRead tb2 ((y - ty0) * tw + (x - tx0)))
      (fun _ => True) (intRange xlo xhi) tb (fun _ _ _ _ => trivial)
      (fun b a _ ha => by
        have hb := mem_intRange.mp ha
        have : (y' - ty0) * tw + (a - tx0) ≠ (y - ty0) * tw + (x - tx0) := by
          intro heq
          have := rowcol_inj (a := y' - ty0) (c := y - ty0) (W := tw)
            (by omega) (by omega) (by omega) (by omega) heq
          omega
        exact rasterPixel_read_ne sq tex tri tx0 ty0 tw a y' _ b this) trivial
    dsimp only at hpres
    rw [hpres, if_neg (fun hc => hyy hc.1)]

/-- Effect of `rasterize_triangle_in_tile` on the observed cell of an
in-tile pixel `(x, y)`: it equals the specification-level step `pixStep`
for that triangle. -/
theorem rastTri_read (sq : ℚ → ℚ) (tex : Option Texture) (tri : ScreenTriangle)
    (tx0 ty0 tx1 ty1 tw x y : ℤ) (tb : TileBuf)
    (htw : tw = tx1 - tx0 + 1) (hx0 : tx0 ≤ x) (hx1 : x ≤ tx1)
    (hy0 : ty0 ≤ y) (hy1 : y ≤ ty1) :
    tbRead (rasterize_triangle_in_tile sq tex tri tx0 ty0 tx1 ty1 tw tb)
      ((y - ty0) * tw + (x - tx0)) =
    pixStep sq tex x y (tbRead tb ((y - ty0) * tw + (x - tx0))) tri := by
  unfold rasterize_triangle_in_tile pixStep
  by_cases hval : tri.valid = false
  · rw [if_pos hval, if_neg (by simp [hval, bboxContains])]
  · rw [if_neg hval]
    by_cases hmiss : tri.max_x < tx0 ∨ tri.min_x > tx1 ∨ tri.max_y < ty0 ∨ tri.min_y > ty1
    · rw [if_pos hmiss, if_neg ?_]
      rintro ⟨-, hbb⟩
      unfold bboxContains at hbb
      rcases hmiss with h | h | h | h <;> omega
    · rw [if_neg hmiss]
      by_cases hxin : tri.min_x ≤ x ∧ x ≤ tri.max_x
      · have hchar := foldl_read_char
          (fun tb1 y' => (intRange (max tri.min_x tx0) (min tri.max_x tx1)).foldl
            (fun tb2 x' => rasterPixel sq tex tri tx0 ty0 tw x' y' tb2) tb1)
          (fun tb1 => tbRead tb1 ((y - ty0) * tw + (x - tx0)))
          (pixBody sq tex tri x y) (fun _ => True) y
          (intRange (max tri.min_y ty0) (min tri.max_y ty1)) tb
          (nodup_intRange _ _) (fun _ _ _ => trivial)
          (fun b a _ _ ha => by
            dsimp only
            rw [rasterRow_read sq tex tri tx0 ty0 tx1 tw x y a _ _ b htw hx0 hx1
              (le_max_right _ _) (min_le_right _ _)]
            rw [if_neg (fun hc => ha hc.1)])
          (fun b _ => by
            dsimp only
            rw [rasterRow_read sq tex tri tx0 ty0 tx1 tw x y y _ _ b htw hx0 hx1
              (le_max_right _ _) (min_le_right _ _)]
            rw [if_pos ⟨rfl, by omega, by omega⟩]) trivial
        dsimp only at hchar
        rw [hchar]
        have hval' : tri.valid = true := by
          cases h : tri.valid
          · exact absurd h hval
          · rfl
        by_cases hyin : tri.min_y ≤ y ∧ y ≤ tri.max_y
        · rw [if_pos (mem_intRange.mpr ⟨by omega, by omega⟩),
            if_pos ⟨hval', by exact ⟨hxin.1, hxin.2, hyin.1, hyin.2⟩⟩]
        · have hnotmem : y ∉ intRange (max tri.min_y ty0) (min tri.max_y ty1) := by
            intro hc
            have := mem_intRange.mp hc
            exact hyin ⟨by omega, by omega⟩
          have hnotstep : ¬(tri.valid = true ∧ bboxContains tri x y) := by
            rintro ⟨-, hbb⟩
            exact hyin ⟨hbb.2.2.1, hbb.2.2.2⟩
          rw [if_neg hnotmem, if_neg hnotstep]
      · have hpres := foldl_read_pres
          (fun tb1 y' => (intRange (max tri.min_x tx0) (min tri.max_x tx1)).foldl
            (fun tb2 x' => rasterPixel sq tex tri tx0 ty0 tw x' y' tb2) tb1)
          (fun tb1 => tbRead tb1 ((y - ty0) * tw + (x - tx0)))
          (fun _ => True) (intRange (max tri.min_y ty0) (min tri.max_y ty1)) tb
          (fun _ _ _ _ => trivial)
          (fun b a _ ha => by
            dsimp only
            rw [rasterRow_read sq tex tri tx0 ty0 tx1 tw x y a _ _ b htw hx0 hx1
              (le_max_right _ _) (min_le_right _ _)]
            rw [if_neg (fun hc => hxin ⟨by omega, by omega⟩)]) trivial
        dsimp only at hpres
        rw [hpres, if_neg (fun hc => hxin ⟨hc.2.1, hc.2.2.1⟩)]

/-- The scratch buffers after rasterizing the whole triangle list in a
tile: observed at an in-tile pixel, they equal the specification-level
fold `pixelResult`. -/
theorem tileFold_read (sq : ℚ → ℚ) (tex : Option Texture)
    (tris : List ScreenTriangle) (tx0 ty0 tx1 ty1 tw x y : ℤ)
    (htw : tw = tx1 - tx0 + 1) (hx0 : tx0 ≤ x) (hx1 : x ≤ tx1)
    (hy0 : ty0 ≤ y) (hy1 : y ≤ ty1) :
    tbRead (tileFold sq tex tris tx0 ty0 tx1 ty1 tw)
      ((y - ty0) * tw + (x - tx0)) = pixelResult sq tex tris x y := by
  unfold tileFold pixelResult
  have h1 := List.foldl_hom (fun tb => tbRead tb ((y - ty0) * tw + (x - tx0)))
    (fun b tri => rasterize_triangle_in_tile sq tex tri tx0 ty0 tx1 ty1 tw b)
    (pixStep sq tex x y) tris initTileBuf
    (fun b tri => by
      dsimp only
      exact (rastTri_read sq tex tri tx0 ty0 tx1 ty1 tw x y b htw
        hx0 hx1 hy0 hy1).symm)
  have h2 := h1.symm
  dsimp only at h2
  rw [h2]
  rfl

/-! ## Blit characterization -/

/-- Any property preserved by a single cell write is preserved by a whole
tile blit. -/
theorem blitTile_pres (W tx0 ty0 tw th : ℕ) (tb : TileBuf) (fb : Framebuffer)
    (P : Framebuffer → Prop)
    (hstep : ∀ (fb2 : Framebuffer) (i : ℕ) (c : Color) (d : ℚ), P fb2 →
      P { fb2 with color_buffer := fb2.color_buffer.set i c
                   depth_buffer := fb2.depth_buffer.set i d })
    (hfb : P fb) : P (blitTile W tx0 ty0 tw th tb fb) := by
  unfold blitTile
  refine foldl_preserves _ P _ _ (fun b a hb _ => ?_) hfb
  exact foldl_preserves _ P _ _ (fun b2 a2 hb2 _ => hstep b2 _ _ _ hb2) hb

/-- Reading one in-bounds framebuffer cell through a tile blit: cells
inside the tile rectangle receive the corresponding tile-buffer cell,
cells outside are untouched. -/
theorem blitTile_read (W tx0 ty0 tw th : ℕ) (tb : TileBuf) (fb : Framebuffer)
    (x y : ℕ) (hcol : tx0 + tw ≤ W) (hxW : x < W)
    (hclen : y * W + x < fb.color_buffer.length)
    (hdlen : y * W + x < fb.depth_buffer.length) :
    fbRead (blitTile W tx0 ty0 tw th tb fb) (y * W + x) =
      if tx0 ≤ x ∧ x < tx0 + tw ∧ ty0 ≤ y ∧ y < ty0 + th then
        (tb.colors (((y - ty0 : ℕ) : ℤ) * (tw : ℤ) + ((x - tx0 : ℕ) : ℤ)),
         tb.depths (((y - ty0 : ℕ) : ℤ) * (tw : ℤ) + ((x - tx0 : ℕ) : ℤ)))
      else fbRead fb (y * W + x) := by
  set P : Framebuffer → Prop := fun fb2 =>
    fb2.color_buffer.length = fb.color_buffer.length ∧
    fb2.depth_buffer.length = fb.depth_buffer.length with hP
  have hPstep : ∀ (fb2 : Framebuffer) (i : ℕ) (c : Color) (d : ℚ), P fb2 →
      P { fb2 with color_buffer := fb2.color_buffer.set i c
                   depth_buffer := fb2.depth_buffer.set i d } := by
    intro fb2 i c d hp
    refine ⟨?_, ?_⟩ <;> simp [List.length_set, hp.1, hp.2]
  have hread_ne : ∀ (fb2 : Framebuffer) (i : ℕ) (c : Color) (d : ℚ),
      i ≠ y * W + x →
      fbRead { fb2 with color_buffer := fb2.color_buffer.set i c
                        depth_buffer := fb2.depth_buffer.set i d } (y * W + x) =
        fbRead fb2 (y * W + x) := by
    intro fb2 i c d hne
    unfold fbRead
    rw [getD_set_ne hne, getD_set_ne hne]
  have hinj : ∀ (ly lx : ℕ), lx < tw →
      (ty0 + ly) * W + (tx0 + lx) = y * W + x → ty0 + ly = y ∧ tx0 + lx = x := by
    intro ly lx hlx heq
    have hcast : ((ty0 + ly : ℕ) : ℤ) * W + ((tx0 + lx : ℕ) : ℤ) =
        ((y : ℕ) : ℤ) * W + ((x : ℕ) : ℤ) := by exact_mod_cast heq
    have := rowcol_inj (a := ((ty0 + ly : ℕ) : ℤ)) (b := ((tx0 + lx : ℕ) : ℤ))
      (c := ((y : ℕ) : ℤ)) (d := ((x : ℕ) : ℤ)) (W := (W : ℤ))
      (by positivity) (by exact_mod_cast by omega) (by positivity)
      (by exact_mod_cast hxW) hcast
    omega
  have hrow_ne : ∀ (ly : ℕ) (b : Framebuffer), P b → ty0 + ly ≠ y →
      fbRead ((List.range tw).foldl (fun fb2 lx =>
        { fb2 with
          color_buffer := fb2.color_buffer.set ((ty0 + ly) * W + (tx0 + lx))
            (tb.colors ((ly : ℤ) * (tw : ℤ) + (lx : ℤ)))
          depth_buffer := fb2.depth_buffer.set ((ty0 + ly) * W + (tx0 + lx))
            (tb.depths ((ly : ℤ) * (tw : ℤ) + (lx : ℤ))) }) b) (y * W + x) =
        fbRead b (y * W + x) := by
    intro ly b hb hne
    refine foldl_read_pres _ (fun fb2 => fbRead fb2 (y * W + x)) P _ b
      (fun b2 a2 hb2 _ => hPstep b2 _ _ _ hb2)
      (fun b2 a2 hb2 ha2 => by
        dsimp only
        exact hread_ne b2 _ _ _
          (fun heq => hne (hinj ly a2 (List.mem_range.mp ha2) heq).1)) hb
  by_cases hrect : tx0 ≤ x ∧ x < tx0 + tw ∧ ty0 ≤ y ∧ y < ty0 + th
  · rw [if_pos hrect]
    unfold blitTile
    have hrow_hit : ∀ (b : Framebuffer), P b →
        fbRead ((List.range tw).foldl (fun fb2 lx =>
          { fb2 with
            color_buffer := fb2.color_buffer.set ((ty0 + (y - ty0)) * W + (tx0 + lx))
              (tb.colors (((y - ty0 : ℕ) : ℤ) * (tw : ℤ) + (lx : ℤ)))
            depth_buffer := fb2.depth_buffer.set ((ty0 + (y - ty0)) * W + (tx0 + lx))
              (tb.depths (((y - ty0 : ℕ) : ℤ) * (tw : ℤ) + (lx : ℤ))) }) b) (y * W + x) =
          (tb.colors (((y - ty0 : ℕ) : ℤ) * (tw : ℤ) + ((x - tx0 : ℕ) : ℤ)),
           tb.depths (((y - ty0 : ℕ) : ℤ) * (tw : ℤ) + ((x - tx0 : ℕ) : ℤ))) := by
      intro b hb
      have hchar2 := foldl_read_char
        (fun fb2 lx =>
          { fb2 with
            color_buffer := fb2.color_buffer.set ((ty0 + (y - ty0)) * W + (tx0 + lx))
              (tb.colors (((y - ty0 : ℕ) : ℤ) * (tw : ℤ) + (lx : ℤ)))
            depth_buffer := fb2.depth_buffer.set ((ty0 + (y - ty0)) * W + (tx0 + lx))
              (tb.depths (((y - ty0 : ℕ) : ℤ) * (tw : ℤ) + (lx : ℤ))) })
        (fun fb2 => fbRead fb2 (y * W + x))
        (fun _ => (tb.colors (((y - ty0 : ℕ) : ℤ) * (tw : ℤ) + ((x - tx0 : ℕ) : ℤ)),
                   tb.depths (((y - ty0 : ℕ) : ℤ) * (tw : ℤ) + ((x - tx0 : ℕ) : ℤ))))
        P (x - tx0) (List.range tw) b (List.nodup_range tw)
        (fun b2 a2 hb2 => hPstep b2 _ _ _ hb2)
        (fun b2 a2 hb2 _ ha2 => by
          dsimp only
          refine hread_ne b2 _ _ _ (fun heq => ?_)
          have hy2 : ty0 + (y - ty0) = y := by omega
          rw [hy2] at heq
          omega)
        (fun b2 hb2 => by
          dsimp only
          have hy' : ty0 + (y - ty0) = y := by omega
          have hx' : tx0 + (x - tx0) = x := by omega
          unfold fbRead
          dsimp only
          rw [hy', hx']
          rw [getD_set_self (by rw [hb2.1]; exact hclen),
            getD_set_self (by rw [hb2.2]; exact hdlen)]) hb
      dsimp only at hchar2
      rw [hchar2, if_pos (List.mem_range.mpr (by omega))]
    have hchar := foldl_read_char
      (fun fb1 ly => (List.range tw).foldl (fun fb2 lx =>
        { fb2 with
          color_buffer := fb2.color_buffer.set ((ty0 + ly) * W + (tx0 + lx))
            (tb.colors ((ly : ℤ) * (tw : ℤ) + (lx : ℤ)))
          depth_buffer := fb2.depth_buffer.set ((ty0 + ly) * W + (tx0 + lx))
            (tb.depths ((ly : ℤ) * (tw : ℤ) + (lx : ℤ))) }) fb1)
      (fun fb1 => fbRead fb1 (y * W + x))
      (fun _ => (tb.colors (((y - ty0 : ℕ) : ℤ) * (tw : ℤ) + ((x - tx0 : ℕ) : ℤ)),
                 tb.depths (((y - ty0 : ℕ) : ℤ) * (tw : ℤ) + ((x - tx0 : ℕ) : ℤ))))
      P (y - ty0) (List.range th) fb (List.nodup_range th)
      (fun b a hb => foldl_preserves _ P _ b
        (fun b2 a2 hb2 _ => hPstep b2 _ _ _ hb2) hb)
      (fun b a hb _ ha => by
        dsimp only
        exact hrow_ne a b hb (by omega))
      (fun b hb => by
        dsimp only
        exact hrow_hit b hb) ⟨rfl, rfl⟩
    dsimp only at hchar
    rw [hchar, if_pos (List.mem_range.mpr (by omega))]
  · rw [if_neg hrect]
    unfold blitTile
    refine foldl_read_pres _ (fun fb1 => fbRead fb1 (y * W + x)) P _ fb
      (fun b a hb _ => foldl_preserves _ P _ b
        (fun b2 a2 hb2 _ => hPstep b2 _ _ _ hb2) hb)
      (fun b a hb ha => ?_) ⟨rfl, rfl⟩
    dsimp only
    refine foldl_read_pres _ (fun fb1 => fbRead fb1 (y * W + x)) P _ b
      (fun b2 a2 hb2 _ => hPstep b2 _ _ _ hb2)
      (fun b2 a2 hb2 ha2 => by
        dsimp only
        refine hread_ne b2 _ _ _ (fun heq => ?_)
        have := hinj a a2 (List.mem_range.mp ha2) heq
        have h1 := List.mem_range.mp ha
        have h2 := List.mem_range.mp ha2
        exact hrect ⟨by omega, by omega, by omega, by omega⟩) hb

/-! ## Tile geometry -/

/-- Every tile index below the tile count yields a nonempty tile rectangle
strictly inside the framebuffer. -/
theorem tile_bounds (W H T tidx : ℕ) (hT : 0 < T) (ht : tidx < numTiles W H T) :
    tileX0 W T tidx ≤ tileX1 W T tidx ∧ tileX1 W T tidx < W ∧
    tileY0 W T tidx ≤ tileY1 W H T tidx ∧ tileY1 W H T tidx < H := by
  unfold numTiles at ht
  have htx : 0 < tilesX W T := by
    rcases Nat.eq_zero_or_pos (tilesX W T) with h | h
    · rw [h, Nat.zero_mul] at ht; omega
    · exact h
  have hty : 0 < tilesY H T := by
    rcases Nat.eq_zero_or_pos (tilesY H T) with h | h
    · rw [h, Nat.mul_zero] at ht; omega
    · exact h
  have hW1 : 1 ≤ W := by
    have := (Nat.one_le_div_iff hT).mp htx
    omega
  have hH1 : 1 ≤ H := by
    have := (Nat.one_le_div_iff hT).mp hty
    omega
  have hcol : tidx % tilesX W T < tilesX W T := Nat.mod_lt _ htx
  have hrow : tidx / tilesX W T < tilesY H T :=
    (Nat.div_lt_iff_lt_mul htx).mpr (by rw [Nat.mul_comm]; exact ht)
  have hx0 : tileX0 W T tidx ≤ W - 1 := by
    unfold tileX0
    have h1 : tidx % tilesX W T ≤ tilesX W T - 1 := by omega
    have h2 : (tidx % tilesX W T) * T ≤ (tilesX W T - 1) * T :=
      Nat.mul_le_mul_right T h1
    have e1 : (tilesX W T - 1) * T = tilesX W T * T - T := by
      rw [Nat.sub_mul, Nat.one_mul]
    have e2 : tilesX W T * T ≤ W + T - 1 := Nat.div_mul_le_self _ _
    omega
  have hy0 : tileY0 W T tidx ≤ H - 1 := by
    unfold tileY0
    have h1 : tidx / tilesX W T ≤ tilesY H T - 1 := by omega
    have h2 : (tidx / tilesX W T) * T ≤ (tilesY H T - 1) * T :=
      Nat.mul_le_mul_right T h1
    have e1 : (tilesY H T - 1) * T = tilesY H T * T - T := by
      rw [Nat.sub_mul, Nat.one_mul]
    have e2 : tilesY H T * T ≤ H + T - 1 := Nat.div_mul_le_self _ _
    omega
  refine ⟨?_, ?_, ?_, ?_⟩
  · unfold tileX1; omega
  · unfold tileX1; omega
  · unfold tileY1; omega
  · unfold tileY1; omega

/-- The tile index of the tile containing pixel `(x, y)`, together with its
placement facts. -/
theorem containing_tile (W H T x y : ℕ) (hT : 0 < T) (hx : x < W) (hy : y < H) :
    (y / T) * tilesX W T + x / T < numTiles W H T ∧
    tileX0 W T ((y / T) * tilesX W T + x / T) = (x / T) * T ∧
    tileY0 W T ((y / T) * tilesX W T + x / T) = (y / T) * T ∧
    tileX0 W T ((y / T) * tilesX W T + x / T) ≤ x ∧
    x ≤ tileX1 W T ((y / T) * tilesX W T + x / T) ∧
    tileY0 W T ((y / T) * tilesX W T + x / T) ≤ y ∧
    y ≤ tileY1 W H T ((y / T) * tilesX W T + x / T) := by
  have hWT : W ≤ tilesX W T * T := by
    unfold tilesX
    have hdm := Nat.div_add_mod (W + T - 1) T
    have hmod := Nat.mod_lt (W + T - 1) hT
    have : T * ((W + T - 1) / T) = ((W + T - 1) / T) * T := Nat.mul_comm _ _
    omega
  have hHT : H ≤ tilesY H T * T := by
    unfold tilesY
    have hdm := Nat.div_add_mod (H + T - 1) T
    have hmod := Nat.mod_lt (H + T - 1) hT
    have : T * ((H + T - 1) / T) = ((H + T - 1) / T) * T := Nat.mul_comm _ _
    omega
  have hxdiv : x / T < tilesX W T :=
    (Nat.div_lt_iff_lt_mul hT).mpr (lt_of_lt_of_le hx hWT)
  have hydiv : y / T < tilesY H T :=
    (Nat.div_lt_iff_lt_mul hT).mpr (lt_of_lt_of_le hy hHT)
  have hts : (y / T) * tilesX W T + x / T < numTiles W H T := by
    unfold numTiles
    calc (y / T) * tilesX W T + x / T
        < (y / T) * tilesX W T + tilesX W T := by omega
      _ = (y / T + 1) * tilesX W T := by ring
      _ ≤ tilesY H T * tilesX W T := Nat.mul_le_mul_right _ (by omega)
      _ = tilesX W T * tilesY H T := Nat.mul_comm _ _
  have hcol : ((y / T) * tilesX W T + x / T) % tilesX W T = x / T := by
    rw [Nat.mul_comm (y / T) (tilesX W T), Nat.mul_add_mod]
    exact Nat.mod_eq_of_lt hxdiv
  have hrowd : ((y / T) * tilesX W T + x / T) / tilesX W T = y / T := by
    have htx : 0 < tilesX W T := by omega
    rw [Nat.add_comm, Nat.add_mul_div_right _ _ htx, Nat.div_eq_of_lt hxdiv,
      Nat.zero_add]
  have hxdm := Nat.div_add_mod x T
  have hxmod := Nat.mod_lt x hT
  have hydm := Nat.div_add_mod y T
  have hymod := Nat.mod_lt y hT
  have hcx : T * (x / T) = (x / T) * T := Nat.mul_comm _ _
  have hcy : T * (y / T) = (y / T) * T := Nat.mul_comm _ _
  refine ⟨hts, ?_, ?_, ?_, ?_, ?_, ?_⟩
  · unfold tileX0; rw [hcol]
  · unfold tileY0; rw [hrowd]
  · unfold tileX0; rw [hcol]; omega
  · unfold tileX1 tileX0; rw [hcol]; omega
  · unfold tileY0; rw [hrowd]; omega
  · unfold tileY1 tileY0; rw [hrowd]; omega

/-! ## Per-pixel characterization of the whole tiled render -/

/-- Tiled rendering does not change the dimensions or the grid lengths of
the framebuffer. -/
theorem render_tiled_pres (sq : ℚ → ℚ) (tex : Option Texture) (T : ℕ)
    (tris : List ScreenTriangle) (fb : Framebuffer) :
    (render_tiled sq tex T tris fb).width = fb.width ∧
    (render_tiled sq tex T tris fb).height = fb.height ∧
    (render_tiled sq tex T tris fb).color_buffer.length = fb.color_buffer.length ∧
    (render_tiled sq tex T tris fb).depth_buffer.length = fb.depth_buffer.length := by
  unfold render_tiled
  refine foldl_preserves _ (fun fb1 => fb1.width = fb.width ∧ fb1.height = fb.height ∧
    fb1.color_buffer.length = fb.color_buffer.length ∧
    fb1.depth_buffer.length = fb.depth_buffer.length) _ fb
    (fun b a hb _ => ?_) ⟨rfl, rfl, rfl, rfl⟩
  unfold renderTile
  exact blitTile_pres _ _ _ _ _ _ _
    (fun fb1 => fb1.width = fb.width ∧ fb1.height = fb.height ∧
      fb1.color_buffer.length = fb.color_buffer.length ∧
      fb1.depth_buffer.length = fb.depth_buffer.length)
    (fun fb2 i c d hp => by
      refine ⟨hp.1, hp.2.1, ?_, ?_⟩ <;> simp [List.length_set, hp.2.2.1, hp.2.2.2])
    hb

/-- Central characterization: after tiled rendering, every in-bounds
framebuffer cell holds exactly the specification-level per-pixel fold
`pixelResult` over the triangle list, independently of the tile size and
of the framebuffer's prior contents. -/
theorem render_tiled_read (sq : ℚ → ℚ) (tex : Option Texture) (T : ℕ)
    (tris : List ScreenTriangle) (fb : Framebuffer) (x y : ℕ)
    (hT : 0 < T) (hx : x < fb.width) (hy : y < fb.height)
    (hclen : fb.color_buffer.length = fb.width * fb.height)
    (hdlen : fb.depth_buffer.length = fb.width * fb.height) :
    fbRead (render_tiled sq tex T tris fb) (y * fb.width + x) =
      pixelResult sq tex tris (x : ℤ) (y : ℤ) := by
  obtain ⟨hts, htX0, htY0, hpx0, hpx1, hpy0, hpy1⟩ :=
    containing_tile fb.width fb.height T x y hT hx hy
  obtain ⟨hbx01, hbx1, hby01, hby1⟩ := tile_bounds fb.width fb.height T _ hT hts
  have hidx : y * fb.width + x < fb.width * fb.height := by
    calc y * fb.width + x < y * fb.width + fb.width := by omega
      _ = (y + 1) * fb.width := by ring
      _ ≤ fb.height * fb.width := Nat.mul_le_mul_right _ (by omega)
      _ = fb.width * fb.height := Nat.mul_comm _ _
  unfold render_tiled
  have hchar := foldl_read_char
    (fun fb1 tidx => renderTile sq tex tris fb.width fb.height T tidx fb1)
    (fun fb1 => fbRead fb1 (y * fb.width + x))
    (fun _ => pixelResult sq tex tris (x : ℤ) (y : ℤ))
    (fun fb1 => fb1.color_buffer.length = fb.width * fb.height ∧
      fb1.depth_buffer.length = fb.width * fb.height)
    ((y / T) * tilesX fb.width T + x / T)
    (List.range (numTiles fb.width fb.height T)) fb
    (List.nodup_range _)
    (fun b a hb => by
      dsimp only
      unfold renderTile
      exact blitTile_pres _ _ _ _ _ _ _
        (fun fb1 => fb1.color_buffer.length = fb.width * fb.height ∧
          fb1.depth_buffer.length = fb.width * fb.height)
        (fun fb2 i c d hp => by
          refine ⟨?_, ?_⟩ <;> simp [List.length_set, hp.1, hp.2])
        hb)
    (fun b a hb hmem hne => by
      dsimp only
      unfold renderTile
      obtain ⟨ha01, ha1, hb01, hb1⟩ :=
        tile_bounds fb.width fb.height T a hT (List.mem_range.mp hmem)
      rw [blitTile_read fb.width _ _ _ _ _ b x y (by omega) hx
        (by rw [hb.1]; exact hidx) (by rw [hb.2]; exact hidx)]
      rw [if_neg ?_]
      rintro ⟨h1, h2, h3, h4⟩
      -- pixel inside tile a forces a to be the containing tile
      have hxa : x / T = a % tilesX fb.width T := by
        refine Nat.div_eq_of_lt_le ?_ ?_
        · exact h1
        · have e2 : (a % tilesX fb.width T + 1) * T =
              tileX0 fb.width T a + T := by
            unfold tileX0; ring
          have e3 : tileX1 fb.width T a ≤ tileX0 fb.width T a + T - 1 := by
            unfold tileX1; omega
          omega
      have hya : y / T = a / tilesX fb.width T := by
        refine Nat.div_eq_of_lt_le ?_ ?_
        · exact h3
        · have e2 : (a / tilesX fb.width T + 1) * T =
              tileY0 fb.width T a + T := by
            unfold tileY0; ring
          have e3 : tileY1 fb.width fb.height T a ≤ tileY0 fb.width T a + T - 1 := by
            unfold tileY1; omega
          omega
      have hA := Nat.div_add_mod a (tilesX fb.width T)
      have hcomm : tilesX fb.width T * (a / tilesX fb.width T) =
          (a / tilesX fb.width T) * tilesX fb.width T := Nat.mul_comm _ _
      apply hne
      rw [hxa, hya]
      omega)
    (fun b hb => by
      dsimp only
      unfold renderTile
      rw [blitTile_read fb.width _ _ _ _ _ b x y (by omega) hx
        (by rw [hb.1]; exact hidx) (by rw [hb.2]; exact hidx)]
      rw [if_pos ⟨hpx0, by omega, hpy0, by omega⟩]
      have hslot :
          (((y - tileY0 fb.width T ((y / T) * tilesX fb.width T + x / T) : ℕ) : ℤ) *
            ((tileX1 fb.width T ((y / T) * tilesX fb.width T + x / T) -
              tileX0 fb.width T ((y / T) * tilesX fb.width T + x / T) + 1 : ℕ) : ℤ) +
            ((x - tileX0 fb.width T ((y / T) * tilesX fb.width T + x / T) : ℕ) : ℤ)) =
          ((y : ℤ) - (tileY0 fb.width T ((y / T) * tilesX fb.width T + x / T) : ℤ)) *
            ((tileX1 fb.width T ((y / T) * tilesX fb.width T + x / T) -
              tileX0 fb.width T ((y / T) * tilesX fb.width T + x / T) + 1 : ℕ) : ℤ) +
            ((x : ℤ) - (tileX0 fb.width T ((y / T) * tilesX fb.width T + x / T) : ℤ)) := by
        rw [Nat.cast_sub hpy0, Nat.cast_sub hpx0]
      rw [hslot]
      have htw : ((tileX1 fb.width T ((y / T) * tilesX fb.width T + x / T) -
            tileX0 fb.width T ((y / T) * tilesX fb.width T + x / T) + 1 : ℕ) : ℤ) =
          (tileX1 fb.width T ((y / T) * tilesX fb.width T + x / T) : ℤ) -
            (tileX0 fb.width T ((y / T) * tilesX fb.width T + x / T) : ℤ) + 1 := by
        omega
      exact tileFold_read sq tex tris _ _ _ _ _ (x : ℤ) (y : ℤ) htw
        (by exact_mod_cast hpx0) (by exact_mod_cast hpx1)
        (by exact_mod_cast hpy0) (by exact_mod_cast hpy1)) ⟨hclen, hdlen⟩
  dsimp only at hchar
  rw [hchar, if_pos (List.mem_range.mpr hts)]

/-! ## Specification-level facts about the per-pixel fold -/

/-- A fragment whose interpolated depth ties with the stored depth is
rejected by the strict test: the per-pixel body leaves the cell unchanged. -/
theorem pixBody_depth_tie (sq : ℚ → ℚ) (tex : Option Texture)
    (tri : ScreenTriangle) (x y : ℤ) (s : Color × ℚ)
    (h : fragDepth tri x y = s.2) : pixBody sq tex tri x y s = s := by
  unfold pixBody
  by_cases hcov : ¬ covers tri x y
  · rw [if_pos hcov]
  · rw [if_neg hcov]
    dsimp only
    by_cases hr : fragDepth tri x y < -1 ∨ 1 < fragDepth tri x y
    · rw [if_pos hr]
    · rw [if_neg hr, if_pos (le_of_eq h.symm)]

/-- Invalid triangles never change a pixel's state. -/
theorem pixStep_invalid (sq : ℚ → ℚ) (tex : Option Texture) (x y : ℤ)
    (s : Color × ℚ) (tri : ScreenTriangle) (h : tri.valid = false) :
    pixStep sq tex x y s tri = s := by
  unfold pixStep
  rw [if_neg]
  rintro ⟨hv, -⟩
  rw [h] at hv
  exact Bool.false_ne_true hv

/-- A triangle list of invalid triangles leaves every pixel at the cleared
state. -/
theorem pixelResult_invalid (sq : ℚ → ℚ) (tex : Option Texture)
    (tris : List ScreenTriangle) (x y : ℤ)
    (h : ∀ tri ∈ tris, tri.valid = false) :
    pixelResult sq tex tris x y = (bgColor, maxDepth) := by
  unfold pixelResult
  exact foldl_read_pres (pixStep sq tex x y) id (fun _ => True) tris
    (bgColor, maxDepth) (fun _ _ _ _ => trivial)
    (fun s tri _ hm => pixStep_invalid sq tex x y s tri (h tri hm)) trivial

/-- Every pixel's final depth is either the cleared value or inside the
clip range `[-1, 1]`. -/
theorem pixelResult_depth_range (sq : ℚ → ℚ) (tex : Option Texture)
    (tris : List ScreenTriangle) (x y : ℤ) :
    (pixelResult sq tex tris x y).2 = maxDepth ∨
      (-1 ≤ (pixelResult sq tex tris x y).2 ∧ (pixelResult sq tex tris x y).2 ≤ 1) := by
  unfold pixelResult
  refine foldl_preserves (pixStep sq tex x y)
    (fun s => s.2 = maxDepth ∨ (-1 ≤ s.2 ∧ s.2 ≤ 1)) tris (bgColor, maxDepth)
    (fun s tri hs _ => ?_) (Or.inl rfl)
  unfold pixStep
  by_cases hc : tri.valid = true ∧ bboxContains tri x y
  · rw [if_pos hc]
    unfold pixBody
    by_cases hcov : ¬ covers tri x y
    · rw [if_pos hcov]; exact hs
    · rw [if_neg hcov]
      dsimp only
      by_cases hr : fragDepth tri x y < -1 ∨ 1 < fragDepth tri x y
      · rw [if_pos hr]; exact hs
      · rw [if_neg hr]
        by_cases hd : s.2 ≤ fragDepth tri x y
        · rw [if_pos hd]; exact hs
        · rw [if_neg hd]
          push_neg at hr
          exact Or.inr ⟨hr.1, hr.2⟩
  · rw [if_neg hc]; exact hs

/-- The depth component of the per-pixel fold is the running minimum of
the accepted fragment depths, provided every accepted fragment lies in the
triangle's bounding box. -/
theorem pixelResult_depth_fold (sq : ℚ → ℚ) (tex : Option Texture) (x y : ℤ) :
    ∀ (tris : List ScreenTriangle) (s : Color × ℚ),
      (∀ tri ∈ tris, acceptsFrag tri x y → bboxContains tri x y) →
      (tris.foldl (pixStep sq tex x y) s).2 =
        (acceptedDepths tris x y).foldl min s.2 := by
  intro tris
  induction tris with
  | nil => intro s _; rfl
  | cons tri rest ih =>
    intro s hacc
    rw [List.foldl_cons]
    have hstep : (pixStep sq tex x y s tri).2 =
        if acceptsFrag tri x y then min s.2 (fragDepth tri x y) else s.2 := by
      unfold pixStep
      by_cases hval : tri.valid = true
      · by_cases hbb : bboxContains tri x y
        · rw [if_pos ⟨hval, hbb⟩]
          unfold pixBody
          by_cases hcov : covers tri x y
          · rw [if_neg (not_not_intro hcov)]
            dsimp only
            by_cases hr : fragDepth tri x y < -1 ∨ 1 < fragDepth tri x y
            · rw [if_pos hr, if_neg]
              rintro ⟨-, -, h1, h2⟩
              rcases hr with hr | hr <;> linarith
            · rw [if_neg hr]
              push_neg at hr
              have haccT : acceptsFrag tri x y := ⟨hval, hcov, hr.1, hr.2⟩
              rw [if_pos haccT]
              by_cases hd : s.2 ≤ fragDepth tri x y
              · rw [if_pos hd]
                exact (min_eq_left hd).symm
              · rw [if_neg hd]
                exact (min_eq_right (le_of_lt (not_le.mp hd))).symm
          · rw [if_pos hcov, if_neg (fun ha => hcov ha.2.1)]
        · rw [if_neg (fun hc => hbb hc.2),
            if_neg (fun ha => hbb (hacc tri (List.mem_cons_self _ _) ha))]
      · rw [if_neg (fun hc => hval hc.1),
          if_neg (fun ha => hval ha.1)]
    have hAD : acceptedDepths (tri :: rest) x y =
        if acceptsFrag tri x y then
          fragDepth tri x y :: acceptedDepths rest x y
        else acceptedDepths rest x y := by
      simp only [acceptedDepths, List.filter_cons]
      by_cases ha : acceptsFrag tri x y <;> simp [ha]
    rw [ih (pixStep sq tex x y s tri)
      (fun t ht => hacc t (List.mem_cons_of_mem _ ht)), hstep, hAD]
    by_cases ha : acceptsFrag tri x y
    · rw [if_pos ha, if_pos ha, List.foldl_cons]
    · rw [if_neg ha, if_neg ha]

/-- The running minimum is a lower bound of the list and of the seed. -/
theorem foldl_min_le : ∀ (l : List ℚ) (a : ℚ),
    l.foldl min a ≤ a ∧ ∀ e ∈ l, l.foldl min a ≤ e := by
  intro l
  induction l with
  | nil => intro a; exact ⟨le_refl a, by simp⟩
  | cons e rest ih =>
    intro a
    rw [List.foldl_cons]
    obtain ⟨h1, h2⟩ := ih (min a e)
    refine ⟨le_trans h1 (min_le_left _ _), ?_⟩
    intro e' he'
    rcases List.mem_cons.mp he' with rfl | hm
    · exact le_trans h1 (min_le_right _ _)
    · exact h2 e' hm

/-- The running minimum is the seed or an element of the list. -/
theorem foldl_min_mem : ∀ (l : List ℚ) (a : ℚ),
    l.foldl min a = a ∨ l.foldl min a ∈ l := by
  intro l
  induction l with
  | nil => intro a; exact Or.inl rfl
  | cons e rest ih =>
    intro a
    rw [List.foldl_cons]
    rcases ih (min a e) with h | h
    · rcases min_choice a e with he | he
      · exact Or.inl (h.trans he)
      · exact Or.inr (List.mem_cons.mpr (Or.inl (h.trans he)))
    · exact Or.inr (List.mem_cons_of_mem _ h)

/-- Decomposition of a flat grid index into row and column. -/
theorem index_decompose (W H i : ℕ) (h : i < W * H) :
    i % W < W ∧ i / W < H ∧ (i / W) * W + i % W = i := by
  have hW : 0 < W := by
    rcases Nat.eq_zero_or_pos W with h0 | h0
    · rw [h0, Nat.zero_mul] at h; omega
    · exact h0
  refine ⟨Nat.mod_lt _ hW, ?_, ?_⟩
  · exact (Nat.div_lt_iff_lt_mul hW).mpr (by rw [Nat.mul_comm]; exact h)
  · have := Nat.div_add_mod i W
    have hc : W * (i / W) = (i / W) * W := Nat.mul_comm _ _
    omega

/-! ## Geometry: a covered pixel center lies in the clamped bounding box -/

/-- The three edge values at a point sum to the signed area. -/
theorem edge_sum (a b c : Vec3) (px py : ℚ) :
    edgeFn b c px py + edgeFn c a px py + edgeFn a b px py =
      edgeFn a b c.x c.y := by
  unfold edgeFn; ring

/-- Barycentric reproduction of the abscissa. -/
theorem edge_weight_x (a b c : Vec3) (px py : ℚ) :
    edgeFn b c px py * a.x + edgeFn c a px py * b.x + edgeFn a b px py * c.x =
      edgeFn a b c.x c.y * px := by
  unfold edgeFn; ring

/-- Barycentric reproduction of the ordinate. -/
theorem edge_weight_y (a b c : Vec3) (px py : ℚ) :
    edgeFn b c px py * a.y + edgeFn c a px py * b.y + edgeFn a b px py * c.y =
      edgeFn a b c.x c.y * py := by
  unfold edgeFn; ring

/-- A convex combination with same-sign weights and nonzero total lies
between the extremes of the points. -/
theorem convex_bound {w0 w1 w2 a x0 x1 x2 px : ℚ}
    (hsum : w0 + w1 + w2 = a)
    (hid : w0 * x0 + w1 * x1 + w2 * x2 = a * px)
    (hne : a ≠ 0)
    (hcov : (0 ≤ w0 ∧ 0 ≤ w1 ∧ 0 ≤ w2) ∨ (w0 ≤ 0 ∧ w1 ≤ 0 ∧ w2 ≤ 0)) :
    min (min x0 x1) x2 ≤ px ∧ px ≤ max (max x0 x1) x2 := by
  have hm0 : min (min x0 x1) x2 ≤ x0 := le_trans (min_le_left _ _) (min_le_left _ _)
  have hm1 : min (min x0 x1) x2 ≤ x1 := le_trans (min_le_left _ _) (min_le_right _ _)
  have hm2 : min (min x0 x1) x2 ≤ x2 := min_le_right _ _
  have hM0 : x0 ≤ max (max x0 x1) x2 := le_trans (le_max_left _ _) (le_max_left _ _)
  have hM1 : x1 ≤ max (max x0 x1) x2 := le_trans (le_max_right _ _) (le_max_left _ _)
  have hM2 : x2 ≤ max (max x0 x1) x2 := le_max_right _ _
  set m := min (min x0 x1) x2
  set M := max (max x0 x1) x2
  have hdm : (w0 + w1 + w2) * m = w0 * m + w1 * m + w2 * m := by ring
  have hdM : (w0 + w1 + w2) * M = w0 * M + w1 * M + w2 * M := by ring
  have hsm : (w0 + w1 + w2) * m = a * m := by rw [hsum]
  have hsM : (w0 + w1 + w2) * M = a * M := by rw [hsum]
  rcases lt_or_gt_of_ne hne with ha | ha
  · rcases hcov with ⟨h0, h1, h2⟩ | ⟨h0, h1, h2⟩
    · linarith
    · have e0m : w0 * x0 ≤ w0 * m := mul_le_mul_of_nonpos_left hm0 h0
      have e1m : w1 * x1 ≤ w1 * m := mul_le_mul_of_nonpos_left hm1 h1
      have e2m : w2 * x2 ≤ w2 * m := mul_le_mul_of_nonpos_left hm2 h2
      have e0M : w0 * M ≤ w0 * x0 := mul_le_mul_of_nonpos_left hM0 h0
      have e1M : w1 * M ≤ w1 * x1 := mul_le_mul_of_nonpos_left hM1 h1
      have e2M : w2 * M ≤ w2 * x2 := mul_le_mul_of_nonpos_left hM2 h2
      have hpm : a * px ≤ a * m := by linarith
      have hpM : a * M ≤ a * px := by linarith
      exact ⟨(mul_le_mul_left_of_neg ha).mp hpm, (mul_le_mul_left_of_neg ha).mp hpM⟩
  · rcases hcov with ⟨h0, h1, h2⟩ | ⟨h0, h1, h2⟩
    · have e0m : w0 * m ≤ w0 * x0 := mul_le_mul_of_nonneg_left hm0 h0
      have e1m : w1 * m ≤ w1 * x1 := mul_le_mul_of_nonneg_left hm1 h1
      have e2m : w2 * m ≤ w2 * x2 := mul_le_mul_of_nonneg_left hm2 h2
      have e0M : w0 * x0 ≤ w0 * M := mul_le_mul_of_nonneg_left hM0 h0
      have e1M : w1 * x1 ≤ w1 * M := mul_le_mul_of_nonneg_left hM1 h1
      have e2M : w2 * x2 ≤ w2 * M := mul_le_mul_of_nonneg_left hM2 h2
      have hpm : a * m ≤ a * px := by linarith
      have hpM : a * px ≤ a * M := by linarith
      exact ⟨le_of_mul_le_mul_left hpm ha, le_of_mul_le_mul_left hpM ha⟩
    · linarith

/-- A pixel whose center lies between two real bounds lies between their
floor and ceiling. -/
theorem center_bbox_int {m M : ℚ} {x : ℤ} (hm : m ≤ (x : ℚ) + 1/2)
    (hM : (x : ℚ) + 1/2 ≤ M) : ⌊m⌋ ≤ x ∧ x ≤ ⌈M⌉ := by
  constructor
  · have h1 : (⌊m⌋ : ℚ) ≤ (x : ℚ) + 1/2 := le_trans (Int.floor_le m) hm
    have h2 : (⌊m⌋ : ℚ) < (((x + 1 : ℤ)) : ℚ) := by push_cast; linarith
    have h3 : ⌊m⌋ < x + 1 := by exact_mod_cast h2
    omega
  · have h1 : (x : ℚ) ≤ (⌈M⌉ : ℚ) := by linarith [Int.le_ceil M]
    exact_mod_cast h1

/-- Fields of a prepared triangle that survived both validity tests. -/
theorem prepare_valid_elim (W H : ℕ) (clip : Fin 3 → Vec4)
    (tex : Fin 3 → Vec2) (nor : Fin 3 → Vec3)
    (h : (prepare_triangle W H clip tex nor).valid = true) :
    (prepare_triangle W H clip tex nor).screen_verts =
        (fun i => toScreen W H (clip i)) ∧
    (prepare_triangle W H clip tex nor).area = screenArea W H clip ∧
    0.001 ≤ |screenArea W H clip| ∧
    (prepare_triangle W H clip tex nor).min_x =
      max 0 ⌊min (min (toScreen W H (clip 0)).x (toScreen W H (clip 1)).x)
        (toScreen W H (clip 2)).x⌋ ∧
    (prepare_triangle W H clip tex nor).max_x =
      min ((W : ℤ) - 1) ⌈max (max (toScreen W H (clip 0)).x (toScreen W H (clip 1)).x)
        (toScreen W H (clip 2)).x⌉ ∧
    (prepare_triangle W H clip tex nor).min_y =
      max 0 ⌊min (min (toScreen W H (clip 0)).y (toScreen W H (clip 1)).y)
        (toScreen W H (clip 2)).y⌋ ∧
    (prepare_triangle W H clip tex nor).max_y =
      min ((H : ℤ) - 1) ⌈max (max (toScreen W H (clip 0)).y (toScreen W H (clip 1)).y)
        (toScreen W H (clip 2)).y⌉ := by
  unfold prepare_triangle at h ⊢
  by_cases hw : (clip 0).w ≤ 0.001 ∨ (clip 1).w ≤ 0.001 ∨ (clip 2).w ≤ 0.001
  · rw [if_pos hw] at h
    simp at h
  · rw [if_neg hw] at h ⊢
    refine ⟨rfl, rfl, ?_, rfl, rfl, rfl, rfl⟩
    dsimp only at h
    rw [Bool.not_eq_true', decide_eq_false_iff_not, not_lt] at h
    exact h

/-- Central geometric fact: for a prepared, valid triangle, any in-bounds
pixel whose center passes the coverage test lies inside the triangle's
clamped integer bounding box.  Hence the bounding-box scan of the
rasterizer misses no covered pixel. -/
theorem covered_in_bbox (W H : ℕ) (clip : Fin 3 → Vec4) (tex : Fin 3 → Vec2)
    (nor : Fin 3 → Vec3) (x y : ℤ)
    (hx0 : 0 ≤ x) (hx : x < (W : ℤ)) (hy0 : 0 ≤ y) (hy : y < (H : ℤ))
    (hval : (prepare_triangle W H clip tex nor).valid = true)
    (hcov : covers (prepare_triangle W H clip tex nor) x y) :
    bboxContains (prepare_triangle W H clip tex nor) x y := by
  obtain ⟨hsv, harea, habs, hminx, hmaxx, hminy, hmaxy⟩ :=
    prepare_valid_elim W H clip tex nor hval
  have hne : screenArea W H clip ≠ 0 := by
    intro h0
    rw [h0] at habs
    norm_num at habs
  have hw0 : fragW0 (prepare_triangle W H clip tex nor) x y =
      edgeFn (toScreen W H (clip 1)) (toScreen W H (clip 2))
        (pixCenter x) (pixCenter y) := by
    unfold fragW0; rw [hsv]
  have hw1 : fragW1 (prepare_triangle W H clip tex nor) x y =
      edgeFn (toScreen W H (clip 2)) (toScreen W H (clip 0))
        (pixCenter x) (pixCenter y) := by
    unfold fragW1; rw [hsv]
  have hw2 : fragW2 (prepare_triangle W H clip tex nor) x y =
      edgeFn (toScreen W H (clip 0)) (toScreen W H (clip 1))
        (pixCenter x) (pixCenter y) := by
    unfold fragW2; rw [hsv]
  have hsum : edgeFn (toScreen W H (clip 1)) (toScreen W H (clip 2))
        (pixCenter x) (pixCenter y) +
      edgeFn (toScreen W H (clip 2)) (toScreen W H (clip 0))
        (pixCenter x) (pixCenter y) +
      edgeFn (toScreen W H (clip 0)) (toScreen W H (clip 1))
        (pixCenter x) (pixCenter y) = screenArea W H clip :=
    edge_sum (toScreen W H (clip 0)) (toScreen W H (clip 1)) (toScreen W H (clip 2))
      (pixCenter x) (pixCenter y)
  have hxid := edge_weight_x (toScreen W H (clip 0)) (toScreen W H (clip 1))
    (toScreen W H (clip 2)) (pixCenter x) (pixCenter y)
  have hyid := edge_weight_y (toScreen W H (clip 0)) (toScreen W H (clip 1))
    (toScreen W H (clip 2)) (pixCenter x) (pixCenter y)
  unfold covers at hcov
  rw [hw0, hw1, hw2] at hcov
  obtain ⟨hbxm, hbxM⟩ := convex_bound hsum hxid hne hcov
  obtain ⟨hbym, hbyM⟩ := convex_bound hsum hyid hne hcov
  have hxint := center_bbox_int (x := x) hbxm hbxM
  have hyint := center_bbox_int (x := y) hbym hbyM
  refine ⟨?_, ?_, ?_, ?_⟩
  · rw [hminx]
    exact max_le hx0 hxint.1
  · rw [hmaxx]
    exact le_min (by omega) hxint.2
  · rw [hminy]
    exact max_le hy0 hyint.1
  · rw [hmaxy]
    exact le_min (by omega) hyint.2

/-! ## Terminal encoder structure -/

theorem flatMap_congr {α β : Type} (f g : α → List β) :
    ∀ (l : List α), (∀ a ∈ l, f a = g a) → l.flatMap f = l.flatMap g := by
  intro l
  induction l with
  | nil => intro _; rfl
  | cons a l ih =>
    intro h
    rw [List.flatMap_cons, List.flatMap_cons, h a (List.mem_cons_self _ _),
      ih (fun a' ha' => h a' (List.mem_cons_of_mem _ ha'))]

/-- The row loop stepping by two, unrolled into the list of row-pair
indices it visits. -/
theorem renderLoop_eq (fb : Framebuffer) :
    ∀ (n k : ℕ), (fb.height + 1) / 2 - k ≤ n →
    renderLoop fb (2 * k) =
      ((List.range ((fb.height + 1) / 2 - k)).map (fun j => k + j)).flatMap
        (fun i => rowPairBytes fb (2 * i)) := by
  intro n
  induction n with
  | zero =>
    intro k hk
    rw [renderLoop]
    have h2k : ¬ (2 * k < fb.height) := by omega
    have hc : (fb.height + 1) / 2 - k = 0 := by omega
    rw [if_neg h2k, hc]
    rfl
  | succ n ih =>
    intro k hk
    by_cases h2k : 2 * k < fb.height
    · rw [renderLoop, if_pos h2k]
      have hrw : 2 * k + 2 = 2 * (k + 1) := by ring
      rw [hrw, ih (k + 1) (by omega)]
      have hc : (fb.height + 1) / 2 - k = ((fb.height + 1) / 2 - (k + 1)) + 1 := by
        omega
      rw [hc, List.range_succ_eq_map]
      rw [List.map_cons, List.flatMap_cons]
      congr 1
      have hmc : List.map (fun j => k + 1 + j)
          (List.range ((fb.height + 1) / 2 - (k + 1))) =
          List.map ((fun j => k + j) ∘ Nat.succ)
          (List.range ((fb.height + 1) / 2 - (k + 1))) := by
        apply List.map_congr_left
        intro j _
        simp only [Function.comp_apply]
        omega
      rw [List.map_map, hmc]
    · rw [renderLoop, if_neg h2k]
      have hc : (fb.height + 1) / 2 - k = 0 := by omega
      rw [hc]
      rfl

/-- In-bounds `get_pixel` reads the raw grid cell. -/
theorem get_pixel_in_bounds (fb : Framebuffer) (x y : ℕ)
    (hx : x < fb.width) (hy : y < fb.height) :
    fb.get_pixel (x : ℤ) (y : ℤ) = specCell fb x y := by
  unfold Framebuffer.get_pixel specCell
  have hcond : ¬ ((x : ℤ) < 0 ∨ (fb.width : ℤ) ≤ (x : ℤ) ∨ (y : ℤ) < 0 ∨
      (fb.height : ℤ) ≤ (y : ℤ)) := by
    push_neg
    refine ⟨by positivity, by exact_mod_cast hx, by positivity, by exact_mod_cast hy⟩
  rw [if_neg hcond]
  have hidx : ((y : ℤ) * (fb.width : ℤ) + (x : ℤ)).toNat = y * fb.width + x := by
    have he : ((y : ℤ) * (fb.width : ℤ) + (x : ℤ)) = ((y * fb.width + x : ℕ) : ℤ) := by
      push_cast; ring
    rw [he, Int.toNat_natCast]
  rw [hidx]

/-- Each visited row pair encodes exactly as the specification describes. -/
theorem rowPair_eq_spec (fb : Framebuffer) (y : ℕ) (hy : y < fb.height) :
    rowPairBytes fb y = specRowPair fb y := by
  unfold rowPairBytes specRowPair
  congr 1
  apply flatMap_congr
  intro x hx
  have hx' : x < fb.width := List.mem_range.mp hx
  dsimp only
  rw [get_pixel_in_bounds fb x y hx' hy]
  by_cases hy1 : y + 1 < fb.height
  · rw [if_pos hy1, if_pos hy1]
    have hcast : ((y : ℤ) + 1) = (((y + 1 : ℕ)) : ℤ) := by push_cast; ring
    rw [hcast, get_pixel_in_bounds fb x (y + 1) hx' hy1]
  · rw [if_neg hy1, if_neg hy1]

/-- Claim C6: the terminal encoder's output starts with the cursor-home
escape and then, for each row pair `(2i, 2i+1)` in order, emits per column
a foreground escape with the top pixel, a background escape with the
bottom pixel (black when the bottom row is out of range), and the UTF-8
bytes `E2 96 80`, ending each row pair with the reset escape and a
newline; the whole output is one byte list, written by the source in a
single flush. -/
theorem c6_terminal_encoding (fb : Framebuffer) :
    terminalRender fb = specTerminalBytes fb := by
  unfold terminalRender specTerminalBytes
  congr 1
  have h := renderLoop_eq fb ((fb.height + 1) / 2) 0 (by omega)
  rw [Nat.mul_zero] at h
  rw [Nat.sub_zero] at h
  have hmap : List.map (fun j => 0 + j) (List.range ((fb.height + 1) / 2)) =
      List.range ((fb.height + 1) / 2) := by
    simp
  rw [hmap] at h
  rw [h]
  apply flatMap_congr
  intro i hi
  exact rowPair_eq_spec fb (2 * i) (by have := List.mem_range.mp hi; omega)

/-- Claim C4: `prepare_triangle` marks a triangle invalid exactly when some
clip-space vertex has `w ≤ 0.001` or the signed screen area is below the
`0.001` threshold in magnitude; an invalid triangle is skipped whole by
the tile rasterizer and contributes no writes. -/
theorem c4_invalid_iff_and_skipped (W H : ℕ) (clip : Fin 3 → Vec4)
    (tex : Fin 3 → Vec2) (nor : Fin 3 → Vec3) :
    ((prepare_triangle W H clip tex nor).valid = false ↔
      (∃ i, (clip i).w ≤ 0.001) ∨ |screenArea W H clip| < 0.001) ∧
    (∀ (sq : ℚ → ℚ) (texture : Option Texture) (tri : ScreenTriangle)
      (tx0 ty0 tx1 ty1 tw : ℤ) (tb : TileBuf), tri.valid = false →
      rasterize_triangle_in_tile sq texture tri tx0 ty0 tx1 ty1 tw tb = tb) := by
  constructor
  · unfold prepare_triangle
    split
    next h =>
      refine iff_of_true rfl (Or.inl ?_)
      rcases h with h | h | h
      · exact ⟨0, h⟩
      · exact ⟨1, h⟩
      · exact ⟨2, h⟩
    next h =>
      push_neg at h
      obtain ⟨h0, h1, h2⟩ := h
      simp only [Bool.not_eq_false', decide_eq_true_eq]
      constructor
      · intro habs
        exact Or.inr habs
      · intro hor
        rcases hor with ⟨i, hi⟩ | harea
        · exfalso
          fin_cases i
          · exact absurd hi (not_le.mpr h0)
          · exact absurd hi (not_le.mpr h1)
          · exact absurd hi (not_le.mpr h2)
        · exact harea
  · intro sq texture tri tx0 ty0 tx1 ty1 tw tb h
    unfold rasterize_triangle_in_tile
    rw [if_pos h]

/-- Claim C5: when the three clip-space `w` components agree (and pass the
validity threshold) and the barycentric weights sum to one, the
perspective-correct interpolation of the rasterizer collapses to the plain
affine barycentric interpolation, exactly, in the exact arithmetic of the
embedding. -/
theorem c5_perspective_affine_identity (tri : ScreenTriangle)
    (w b0 b1 b2 a0 a1 a2 : ℚ)
    (h0 : (tri.clip_verts 0).w = w) (h1 : (tri.clip_verts 1).w = w)
    (h2 : (tri.clip_verts 2).w = w) (hw : 0.001 < w) (hb : b0 + b1 + b2 = 1) :
    perspInterp tri b0 b1 b2 a0 a1 a2 = affineInterp b0 b1 b2 a0 a1 a2 := by
  have hne : w ≠ 0 := ne_of_gt (lt_trans (by norm_num) hw)
  unfold perspInterp affineInterp
  rw [h0, h1, h2]
  dsimp only
  have key : b0 * (1 / w) + b1 * (1 / w) + b2 * (1 / w) = 1 / w := by
    have hfac : b0 * (1 / w) + b1 * (1 / w) + b2 * (1 / w) =
        (b0 + b1 + b2) * (1 / w) := by ring
    rw [hfac, hb, one_mul]
  rw [key, one_div_one_div]
  have hfac2 : b0 * a0 * (1 / w) + b1 * a1 * (1 / w) + b2 * a2 * (1 / w)
      = (b0 * a0 + b1 * a1 + b2 * a2) * (1 / w) := by ring
  rw [hfac2, mul_assoc, one_div_mul_cancel hne, mul_one]

/-- Witness for C5 at a concrete triangle and concrete weights. -/
theorem c5_witness :
    (0.001 : ℚ) < 2 ∧ (1/2 : ℚ) + 1/4 + 1/4 = 1 ∧
    perspInterp
      (ScreenTriangle.mk (fun _ => ⟨0, 0, 0⟩) (fun _ => ⟨0, 0, 0, 2⟩)
        (fun _ => ⟨0, 0⟩) (fun _ => ⟨0, 1, 0⟩) 1 0 0 0 0 true)
      (1/2) (1/4) (1/4) 5 7 11 =
      affineInterp (1/2) (1/4) (1/4) 5 7 11 :=
  ⟨by norm_num, by norm_num,
    c5_perspective_affine_identity _ 2 (1/2) (1/4) (1/4) 5 7 11
      rfl rfl rfl (by norm_num) (by norm_num)⟩

/-- Counterexample to Claim C8 as stated: `resize` to the *same*
dimensions early-returns without resetting, so a dirty framebuffer keeps
its contents. -/
theorem c8_resize_counterexample :
    ¬ ∀ c ∈ (Framebuffer.resize
        (Framebuffer.mk 1 1 [Color.mk 255 255 255] [0]) 1 1).color_buffer,
      c = bgColor := by
  decide

/-- Claim C8 (amended): when the requested dimensions differ from the
current ones, `resize(W',H')` leaves both grids with length `W'·H'` and
contents reset to the clear background and cleared depth. -/
theorem c8_resize_amended (fb : Framebuffer) (w h : ℕ)
    (hne : ¬(w = fb.width ∧ h = fb.height)) :
    (fb.resize w h).width = w ∧ (fb.resize w h).height = h ∧
    (fb.resize w h).color_buffer.length = w * h ∧
    (fb.resize w h).depth_buffer.length = w * h ∧
    (fb.resize w h).color_buffer = List.replicate (w * h) bgColor ∧
    (fb.resize w h).depth_buffer = List.replicate (w * h) maxDepth := by
  unfold Framebuffer.resize
  rw [if_neg hne]
  unfold Framebuffer.clear
  refine ⟨rfl, rfl, ?_, ?_, rfl, rfl⟩ <;> simp

/-- Witness for the amended C8 at a concrete dirty framebuffer. -/
theorem c8_witness :
    ¬((2 : ℕ) = (Framebuffer.mk 1 1 [Color.mk 255 255 255] [0]).width ∧
      (3 : ℕ) = (Framebuffer.mk 1 1 [Color.mk 255 255 255] [0]).height) ∧
    ((Framebuffer.mk 1 1 [Color.mk 255 255 255] [0]).resize 2 3).color_buffer =
      List.replicate 6 bgColor :=
  ⟨by decide,
    (c8_resize_amended (Framebuffer.mk 1 1 [Color.mk 255 255 255] [0]) 2 3
      (by decide)).2.2.2.2.1⟩

/-- Claim C7: rendering a list with no valid triangle (in particular the
empty list) leaves every color cell equal to the background color
`(20,20,30)` and every depth cell equal to the cleared depth. -/
theorem c7_background_when_no_valid_triangle (sq : ℚ → ℚ) (tex : Option Texture)
    (T : ℕ) (tris : List ScreenTriangle) (fb : Framebuffer)
    (hT : 0 < T) (hwf : fb.wf) (hinv : ∀ tri ∈ tris, tri.valid = false) :
    (∀ i, i < (render_tiled sq tex T tris fb).color_buffer.length →
      (render_tiled sq tex T tris fb).color_buffer.getD i ⟨0, 0, 0⟩ = bgColor) ∧
    (∀ i, i < (render_tiled sq tex T tris fb).depth_buffer.length →
      (render_tiled sq tex T tris fb).depth_buffer.getD i 0 = maxDepth) := by
  obtain ⟨hw, hh, hcl, hdl⟩ := render_tiled_pres sq tex T tris fb
  constructor
  · intro i hi
    rw [hcl, hwf.1] at hi
    obtain ⟨hmod, hdiv, hidx⟩ := index_decompose fb.width fb.height i hi
    have hread := render_tiled_read sq tex T tris fb (i % fb.width) (i / fb.width)
      hT hmod hdiv hwf.1 hwf.2
    rw [hidx] at hread
    have h2 := pixelResult_invalid sq tex tris ((i % fb.width : ℕ) : ℤ)
      ((i / fb.width : ℕ) : ℤ) hinv
    calc (render_tiled sq tex T tris fb).color_buffer.getD i ⟨0, 0, 0⟩
        = (fbRead (render_tiled sq tex T tris fb) i).1 := rfl
      _ = (pixelResult sq tex tris ((i % fb.width : ℕ) : ℤ)
            ((i / fb.width : ℕ) : ℤ)).1 := congrArg Prod.fst hread
      _ = bgColor := by rw [h2]
  · intro i hi
    rw [hdl, hwf.2] at hi
    obtain ⟨hmod, hdiv, hidx⟩ := index_decompose fb.width fb.height i hi
    have hread := render_tiled_read sq tex T tris fb (i % fb.width) (i / fb.width)
      hT hmod hdiv hwf.1 hwf.2
    rw [hidx] at hread
    have h2 := pixelResult_invalid sq tex tris ((i % fb.width : ℕ) : ℤ)
      ((i / fb.width : ℕ) : ℤ) hinv
    calc (render_tiled sq tex T tris fb).depth_buffer.getD i 0
        = (fbRead (render_tiled sq tex T tris fb) i).2 := rfl
      _ = (pixelResult sq tex tris ((i % fb.width : ℕ) : ℤ)
            ((i / fb.width : ℕ) : ℤ)).2 := congrArg Prod.snd hread
      _ = maxDepth := by rw [h2]

/-- Witness for C7 on a concrete 2×2 framebuffer and the empty triangle
list. -/
theorem c7_witness :
    (0 : ℕ) < 1 ∧
    (Framebuffer.mk 2 2 (List.replicate 4 (Color.mk 9 9 9))
      (List.replicate 4 (0 : ℚ))).wf ∧
    (∀ i, i < (render_tiled id none 1 []
        (Framebuffer.mk 2 2 (List.replicate 4 (Color.mk 9 9 9))
          (List.replicate 4 (0 : ℚ)))).color_buffer.length →
      (render_tiled id none 1 []
        (Framebuffer.mk 2 2 (List.replicate 4 (Color.mk 9 9 9))
          (List.replicate 4 (0 : ℚ)))).color_buffer.getD i ⟨0, 0, 0⟩ = bgColor) :=
  ⟨by decide, by decide,
    (c7_background_when_no_valid_triangle id none 1 []
      (Framebuffer.mk 2 2 (List.replicate 4 (Color.mk 9 9 9))
        (List.replicate 4 (0 : ℚ)))
      (by decide) (by decide) (by intro tri h; exact absurd h (List.not_mem_nil _))).1⟩

/-- Claim C10: after tiled rasterization every depth cell is either the
cleared value (float max) or lies in `[-1, 1]`, because out-of-range
fragments are discarded before the depth write. -/
theorem c10_depth_range_invariant (sq : ℚ → ℚ) (tex : Option Texture)
    (T : ℕ) (tris : List ScreenTriangle) (fb : Framebuffer)
    (hT : 0 < T) (hwf : fb.wf) :
    ∀ i, i < (render_tiled sq tex T tris fb).depth_buffer.length →
      (render_tiled sq tex T tris fb).depth_buffer.getD i 0 = maxDepth ∨
      (-1 ≤ (render_tiled sq tex T tris fb).depth_buffer.getD i 0 ∧
        (render_tiled sq tex T tris fb).depth_buffer.getD i 0 ≤ 1) := by
  obtain ⟨hw, hh, hcl, hdl⟩ := render_tiled_pres sq tex T tris fb
  intro i hi
  rw [hdl, hwf.2] at hi
  obtain ⟨hmod, hdiv, hidx⟩ := index_decompose fb.width fb.height i hi
  have hread := render_tiled_read sq tex T tris fb (i % fb.width) (i / fb.width)
    hT hmod hdiv hwf.1 hwf.2
  rw [hidx] at hread
  have hval : (render_tiled sq tex T tris fb).depth_buffer.getD i 0 =
      (pixelResult sq tex tris ((i % fb.width : ℕ) : ℤ)
        ((i / fb.width : ℕ) : ℤ)).2 := congrArg Prod.snd hread
  rw [hval]
  exact pixelResult_depth_range sq tex tris _ _

/-- Witness for C10 on a concrete framebuffer. -/
theorem c10_witness :
    (0 : ℕ) < 1 ∧
    (Framebuffer.mk 1 1 [bgColor] [maxDepth]).wf ∧
    (∀ i, i < (render_tiled id none 1 []
        (Framebuffer.mk 1 1 [bgColor] [maxDepth])).depth_buffer.length →
      (render_tiled id none 1 []
        (Framebuffer.mk 1 1 [bgColor] [maxDepth])).depth_buffer.getD i 0 =
          maxDepth ∨
      (-1 ≤ (render_tiled id none 1 []
          (Framebuffer.mk 1 1 [bgColor] [maxDepth])).depth_buffer.getD i 0 ∧
        (render_tiled id none 1 []
          (Framebuffer.mk 1 1 [bgColor] [maxDepth])).depth_buffer.getD i 0 ≤ 1)) :=
  ⟨by decide, by decide,
    c10_depth_range_invariant id none 1 []
      (Framebuffer.mk 1 1 [bgColor] [maxDepth]) (by decide) (by decide)⟩

/-- Two tiled renders over the same triangle list agree buffer-for-buffer
whenever the two target framebuffers share dimensions and are well-formed,
for any two positive tile sizes. -/
theorem render_tiled_bufs_eq (sq : ℚ → ℚ) (tex : Option Texture)
    (T1 T2 : ℕ) (tris : List ScreenTriangle) (fb1 fb2 : Framebuffer)
    (hT1 : 0 < T1) (hT2 : 0 < T2) (hW : fb1.width = fb2.width)
    (hH : fb1.height = fb2.height) (hwf1 : fb1.wf) (hwf2 : fb2.wf) :
    (render_tiled sq tex T1 tris fb1).color_buffer =
      (render_tiled sq tex T2 tris fb2).color_buffer ∧
    (render_tiled sq tex T1 tris fb1).depth_buffer =
      (render_tiled sq tex T2 tris fb2).depth_buffer := by
  obtain ⟨hw1, hh1, hcl1, hdl1⟩ := render_tiled_pres sq tex T1 tris fb1
  obtain ⟨hw2, hh2, hcl2, hdl2⟩ := render_tiled_pres sq tex T2 tris fb2
  have hlen : fb1.color_buffer.length = fb2.color_buffer.length := by
    rw [hwf1.1, hwf2.1, hW, hH]
  have hlend : fb1.depth_buffer.length = fb2.depth_buffer.length := by
    rw [hwf1.2, hwf2.2, hW, hH]
  constructor
  · refine List.ext_getElem (by rw [hcl1, hcl2, hlen]) ?_
    intro i h1 h2
    have hi : i < fb1.width * fb1.height := by rw [← hwf1.1, ← hcl1]; exact h1
    obtain ⟨hmod, hdiv, hidx⟩ := index_decompose fb1.width fb1.height i hi
    have e1 := render_tiled_read sq tex T1 tris fb1 (i % fb1.width) (i / fb1.width)
      hT1 hmod hdiv hwf1.1 hwf1.2
    have e2 := render_tiled_read sq tex T2 tris fb2 (i % fb1.width) (i / fb1.width)
      hT2 (by rw [← hW]; exact hmod) (by rw [← hH]; exact hdiv)
      hwf2.1 hwf2.2
    rw [hidx] at e1
    rw [← hW] at e2
    rw [hidx] at e2
    have hc1 := congrArg Prod.fst e1
    have hc2 := congrArg Prod.fst e2
    rw [← List.getD_eq_getElem _ (Color.mk 0 0 0) h1,
      ← List.getD_eq_getElem _ (Color.mk 0 0 0) h2]
    calc (render_tiled sq tex T1 tris fb1).color_buffer.getD i ⟨0, 0, 0⟩
        = (pixelResult sq tex tris ((i % fb1.width : ℕ) : ℤ)
            ((i / fb1.width : ℕ) : ℤ)).1 := hc1
      _ = (render_tiled sq tex T2 tris fb2).color_buffer.getD i ⟨0, 0, 0⟩ :=
          hc2.symm
  · refine List.ext_getElem (by rw [hdl1, hdl2, hlend]) ?_
    intro i h1 h2
    have hi : i < fb1.width * fb1.height := by rw [← hwf1.2, ← hdl1]; exact h1
    obtain ⟨hmod, hdiv, hidx⟩ := index_decompose fb1.width fb1.height i hi
    have e1 := render_tiled_read sq tex T1 tris fb1 (i % fb1.width) (i / fb1.width)
      hT1 hmod hdiv hwf1.1 hwf1.2
    have e2 := render_tiled_read sq tex T2 tris fb2 (i % fb1.width) (i / fb1.width)
      hT2 (by rw [← hW]; exact hmod) (by rw [← hH]; exact hdiv)
      hwf2.1 hwf2.2
    rw [hidx] at e1
    rw [← hW] at e2
    rw [hidx] at e2
    have hc1 := congrArg Prod.snd e1
    have hc2 := congrArg Prod.snd e2
    rw [← List.getD_eq_getElem _ (0 : ℚ) h1, ← List.getD_eq_getElem _ (0 : ℚ) h2]
    calc (render_tiled sq tex T1 tris fb1).depth_buffer.getD i 0
        = (pixelResult sq tex tris ((i % fb1.width : ℕ) : ℤ)
            ((i / fb1.width : ℕ) : ℤ)).2 := hc1
      _ = (render_tiled sq tex T2 tris fb2).depth_buffer.getD i 0 := hc2.symm

/-- Claim C2: tiled rasterization produces the same framebuffer for any
two positive tile edge lengths. -/
theorem c2_tile_invariance (sq : ℚ → ℚ) (tex : Option Texture)
    (T1 T2 : ℕ) (tris : List ScreenTriangle) (fb : Framebuffer)
    (hT1 : 0 < T1) (hT2 : 0 < T2) (hwf : fb.wf) :
    render_tiled sq tex T1 tris fb = render_tiled sq tex T2 tris fb := by
  obtain ⟨hw1, hh1, -, -⟩ := render_tiled_pres sq tex T1 tris fb
  obtain ⟨hw2, hh2, -, -⟩ := render_tiled_pres sq tex T2 tris fb
  obtain ⟨hc, hd⟩ := render_tiled_bufs_eq sq tex T1 T2 tris fb fb hT1 hT2
    rfl rfl hwf hwf
  ext : 1
  · rw [hw1, hw2]
  · rw [hh1, hh2]
  · rw [hc]
  · rw [hd]

/-- Witness for C2 with tile sizes 1 and 2 on a concrete framebuffer. -/
theorem c2_witness :
    (0 : ℕ) < 1 ∧ (0 : ℕ) < 2 ∧
    (Framebuffer.mk 2 2 (List.replicate 4 bgColor)
      (List.replicate 4 maxDepth)).wf ∧
    render_tiled id none 1 []
        (Framebuffer.mk 2 2 (List.replicate 4 bgColor) (List.replicate 4 maxDepth)) =
      render_tiled id none 2 []
        (Framebuffer.mk 2 2 (List.replicate 4 bgColor) (List.replicate 4 maxDepth)) :=
  ⟨by decide, by decide, by decide,
    c2_tile_invariance id none 1 2 []
      (Framebuffer.mk 2 2 (List.replicate 4 bgColor) (List.replicate 4 maxDepth))
      (by decide) (by decide) (by decide)⟩

/-- Claim C9: the output of tiled rasterization does not depend on the
framebuffer's prior contents — two well-formed framebuffers of the same
dimensions yield identical color and depth buffers, because every tile
blit overwrites its whole tile and the tiles cover the framebuffer. -/
theorem c9_initial_contents_independence (sq : ℚ → ℚ) (tex : Option Texture)
    (T : ℕ) (tris : List ScreenTriangle) (fb1 fb2 : Framebuffer)
    (hT : 0 < T) (hW : fb1.width = fb2.width) (hH : fb1.height = fb2.height)
    (hwf1 : fb1.wf) (hwf2 : fb2.wf) :
    (render_tiled sq tex T tris fb1).color_buffer =
      (render_tiled sq tex T tris fb2).color_buffer ∧
    (render_tiled sq tex T tris fb1).depth_buffer =
      (render_tiled sq tex T tris fb2).depth_buffer :=
  render_tiled_bufs_eq sq tex T T tris fb1 fb2 hT hT hW hH hwf1 hwf2

/-- Witness for C9 with two differently dirty framebuffers. -/
theorem c9_witness :
    (0 : ℕ) < 1 ∧
    (Framebuffer.mk 1 2 [Color.mk 1 2 3, Color.mk 4 5 6] [(5 : ℚ), 7]).wf ∧
    (Framebuffer.mk 1 2 [Color.mk 7 7 7, Color.mk 8 8 8] [(0 : ℚ), 2]).wf ∧
    (render_tiled id none 1 []
        (Framebuffer.mk 1 2 [Color.mk 1 2 3, Color.mk 4 5 6] [(5 : ℚ), 7])).color_buffer =
      (render_tiled id none 1 []
        (Framebuffer.mk 1 2 [Color.mk 7 7 7, Color.mk 8 8 8] [(0 : ℚ), 2])).color_buffer :=
  ⟨by decide, by decide, by decide,
    (c9_initial_contents_independence id none 1 []
      (Framebuffer.mk 1 2 [Color.mk 1 2 3, Color.mk 4 5 6] [(5 : ℚ), 7])
      (Framebuffer.mk 1 2 [Color.mk 7 7 7, Color.mk 8 8 8] [(0 : ℚ), 2])
      (by decide) rfl rfl (by decide) (by decide)).1⟩

/-- Claim C1: at every in-bounds pixel reached by at least one accepted
fragment of a prepared triangle list, the stored depth after tiled
rasterization is the minimum of the accepted fragment depths (valid
triangle, coverage test passes at the pixel center, interpolated depth in
`[-1,1]`); and a later fragment whose depth ties the stored depth loses,
because the depth test is strict. -/
theorem c1_depth_minimum (sq : ℚ → ℚ) (tex : Option Texture) (T : ℕ)
    (tris : List ScreenTriangle) (fb : Framebuffer) (x y : ℕ)
    (hT : 0 < T) (hwf : fb.wf) (hx : x < fb.width) (hy : y < fb.height)
    (hprep : ∀ tri ∈ tris, ∃ c t n,
      tri = prepare_triangle fb.width fb.height c t n)
    (hne : acceptedDepths tris (x : ℤ) (y : ℤ) ≠ []) :
    ((render_tiled sq tex T tris fb).depth_buffer.getD (y * fb.width + x) 0 ∈
        acceptedDepths tris (x : ℤ) (y : ℤ) ∧
      ∀ e ∈ acceptedDepths tris (x : ℤ) (y : ℤ),
        (render_tiled sq tex T tris fb).depth_buffer.getD (y * fb.width + x) 0 ≤ e) ∧
    (∀ (s : Color × ℚ) (tri : ScreenTriangle),
      fragDepth tri (x : ℤ) (y : ℤ) = s.2 →
      pixBody sq tex tri (x : ℤ) (y : ℤ) s = s) := by
  have hacc : ∀ tri ∈ tris, acceptsFrag tri (x : ℤ) (y : ℤ) →
      bboxContains tri (x : ℤ) (y : ℤ) := by
    intro tri htri ha
    obtain ⟨c, t, n, rfl⟩ := hprep tri htri
    exact covered_in_bbox fb.width fb.height c t n (x : ℤ) (y : ℤ)
      (by positivity) (by exact_mod_cast hx) (by positivity) (by exact_mod_cast hy)
      ha.1 ha.2.1
  have hread := render_tiled_read sq tex T tris fb x y hT hx hy hwf.1 hwf.2
  have hdepth : (render_tiled sq tex T tris fb).depth_buffer.getD
      (y * fb.width + x) 0 = (pixelResult sq tex tris (x : ℤ) (y : ℤ)).2 :=
    congrArg Prod.snd hread
  have hfold : (pixelResult sq tex tris (x : ℤ) (y : ℤ)).2 =
      (acceptedDepths tris (x : ℤ) (y : ℤ)).foldl min maxDepth :=
    pixelResult_depth_fold sq tex (x : ℤ) (y : ℤ) tris (bgColor, maxDepth) hacc
  have hle := foldl_min_le (acceptedDepths tris (x : ℤ) (y : ℤ)) maxDepth
  have hmem := foldl_min_mem (acceptedDepths tris (x : ℤ) (y : ℤ)) maxDepth
  have hbound : ∀ e ∈ acceptedDepths tris (x : ℤ) (y : ℤ), e ≤ 1 := by
    intro e he
    unfold acceptedDepths at he
    obtain ⟨tri, htri, rfl⟩ := List.mem_map.mp he
    have hmf := List.mem_filter.mp htri
    have hacc' : acceptsFrag tri (x : ℤ) (y : ℤ) := of_decide_eq_true hmf.2
    exact hacc'.2.2.2
  refine ⟨⟨?_, ?_⟩, ?_⟩
  · rcases hmem with h | h
    · exfalso
      obtain ⟨e, he⟩ := List.exists_mem_of_ne_nil _ hne
      have h1 := hle.2 e he
      rw [h] at h1
      have h2 : maxDepth ≤ 1 := le_trans h1 (hbound e he)
      norm_num [maxDepth] at h2
    · rw [hdepth, hfold]
      exact h
  · intro e he
    rw [hdepth, hfold]
    exact hle.2 e he
  · intro s tri h
    exact pixBody_depth_tie sq tex tri _ _ s h

/-- Claim C3: for every tile index below the tile count, the tile
rectangle is inside the framebuffer; every pixel visited by the
rasterizer's clamped overlap loops is in `[0,W)×[0,H)` with a tile-local
index inside the tile scratch buffers; and every blit write lands at a
flat index below `W·H`. -/
theorem c3_no_out_of_bounds_writes (W H T tidx : ℕ) (hT : 0 < T)
    (ht : tidx < numTiles W H T) :
    (tileX0 W T tidx ≤ tileX1 W T tidx ∧ tileX1 W T tidx < W ∧
      tileY0 W T tidx ≤ tileY1 W H T tidx ∧ tileY1 W H T tidx < H) ∧
    (∀ (tri : ScreenTriangle) (x y : ℤ),
      x ∈ intRange (max tri.min_x (tileX0 W T tidx))
        (min tri.max_x (tileX1 W T tidx)) →
      y ∈ intRange (max tri.min_y (tileY0 W T tidx))
        (min tri.max_y (tileY1 W H T tidx)) →
      (0 ≤ x ∧ x < (W : ℤ) ∧ 0 ≤ y ∧ y < (H : ℤ)) ∧
      (0 ≤ (y - (tileY0 W T tidx : ℤ)) *
          ((tileX1 W T tidx - tileX0 W T tidx + 1 : ℕ) : ℤ) +
          (x - (tileX0 W T tidx : ℤ)) ∧
        (y - (tileY0 W T tidx : ℤ)) *
          ((tileX1 W T tidx - tileX0 W T tidx + 1 : ℕ) : ℤ) +
          (x - (tileX0 W T tidx : ℤ)) <
          (((tileX1 W T tidx - tileX0 W T tidx + 1) *
            (tileY1 W H T tidx - tileY0 W T tidx + 1) : ℕ) : ℤ))) ∧
    (∀ lx ly : ℕ, lx < tileX1 W T tidx - tileX0 W T tidx + 1 →
      ly < tileY1 W H T tidx - tileY0 W T tidx + 1 →
      (tileY0 W T tidx + ly) * W + (tileX0 W T tidx + lx) < W * H) := by
  obtain ⟨hx01, hx1, hy01, hy1⟩ := tile_bounds W H T tidx hT ht
  refine ⟨⟨hx01, hx1, hy01, hy1⟩, ?_, ?_⟩
  · intro tri x y hxm hym
    have hxb := mem_intRange.mp hxm
    have hyb := mem_intRange.mp hym
    have h1 : (tileX0 W T tidx : ℤ) ≤ x := le_trans (le_max_right _ _) hxb.1
    have h2 : x ≤ (tileX1 W T tidx : ℤ) := le_trans hxb.2 (min_le_right _ _)
    have h3 : (tileY0 W T tidx : ℤ) ≤ y := le_trans (le_max_right _ _) hyb.1
    have h4 : y ≤ (tileY1 W H T tidx : ℤ) := le_trans hyb.2 (min_le_right _ _)
    have hx1' : (tileX1 W T tidx : ℤ) < (W : ℤ) := by exact_mod_cast hx1
    have hy1' : (tileY1 W H T tidx : ℤ) < (H : ℤ) := by exact_mod_cast hy1
    have htw : ((tileX1 W T tidx - tileX0 W T tidx + 1 : ℕ) : ℤ) =
        (tileX1 W T tidx : ℤ) - (tileX0 W T tidx : ℤ) + 1 := by
      have := hx01
      omega
    have hth : ((tileY1 W H T tidx - tileY0 W T tidx + 1 : ℕ) : ℤ) =
        (tileY1 W H T tidx : ℤ) - (tileY0 W T tidx : ℤ) + 1 := by
      have := hy01
      omega
    refine ⟨⟨by omega, by omega, by omega, by omega⟩, ?_, ?_⟩
    · rw [htw]
      have hly : 0 ≤ y - (tileY0 W T tidx : ℤ) := by omega
      have hlx : 0 ≤ x - (tileX0 W T tidx : ℤ) := by omega
      have htwpos : 0 ≤ (tileX1 W T tidx : ℤ) - (tileX0 W T tidx : ℤ) + 1 := by
        omega
      have := mul_nonneg hly htwpos
      omega
    · have hprod : (((tileX1 W T tidx - tileX0 W T tidx + 1) *
          (tileY1 W H T tidx - tileY0 W T tidx + 1) : ℕ) : ℤ) =
          ((tileX1 W T tidx : ℤ) - (tileX0 W T tidx : ℤ) + 1) *
          ((tileY1 W H T tidx : ℤ) - (tileY0 W T tidx : ℤ) + 1) := by
        rw [Nat.cast_mul, htw, hth]
      rw [htw, hprod]
      have hb1 : x - (tileX0 W T tidx : ℤ) <
          (tileX1 W T tidx : ℤ) - (tileX0 W T tidx : ℤ) + 1 := by omega
      have hb2 : (y - (tileY0 W T tidx : ℤ)) + 1 ≤
          (tileY1 W H T tidx : ℤ) - (tileY0 W T tidx : ℤ) + 1 := by omega
      have hb3 : (0 : ℤ) ≤ y - (tileY0 W T tidx : ℤ) := by omega
      have htwpos : (0 : ℤ) <
          (tileX1 W T tidx : ℤ) - (tileX0 W T tidx : ℤ) + 1 := by omega
      calc (y - (tileY0 W T tidx : ℤ)) *
            ((tileX1 W T tidx : ℤ) - (tileX0 W T tidx : ℤ) + 1) +
            (x - (tileX0 W T tidx : ℤ))
          < (y - (tileY0 W T tidx : ℤ)) *
            ((tileX1 W T tidx : ℤ) - (tileX0 W T tidx : ℤ) + 1) +
            ((tileX1 W T tidx : ℤ) - (tileX0 W T tidx : ℤ) + 1) := by omega
        _ = ((y - (tileY0 W T tidx : ℤ)) + 1) *
            ((tileX1 W T tidx : ℤ) - (tileX0 W T tidx : ℤ) + 1) := by ring
        _ ≤ ((tileY1 W H T tidx : ℤ) - (tileY0 W T tidx : ℤ) + 1) *
            ((tileX1 W T tidx : ℤ) - (tileX0 W T tidx : ℤ) + 1) :=
            mul_le_mul_of_nonneg_right hb2 (le_of_lt htwpos)
        _ = ((tileX1 W T tidx : ℤ) - (tileX0 W T tidx : ℤ) + 1) *
            ((tileY1 W H T tidx : ℤ) - (tileY0 W T tidx : ℤ) + 1) := by ring
  · intro lx ly hlx hly
    have hbx : tileX0 W T tidx + (tileX1 W T tidx - tileX0 W T tidx) =
        tileX1 W T tidx := Nat.add_sub_cancel' hx01
    have hby : tileY0 W T tidx + (tileY1 W H T tidx - tileY0 W T tidx) =
        tileY1 W H T tidx := Nat.add_sub_cancel' hy01
    have hrow : tileY0 W T tidx + ly ≤ H - 1 := by omega
    have hcol : tileX0 W T tidx + lx ≤ W - 1 := by omega
    have hW1 : 1 ≤ W := by omega
    have hH1 : 1 ≤ H := by omega
    have hm1 : (tileY0 W T tidx + ly) * W ≤ (H - 1) * W :=
      Nat.mul_le_mul_right W hrow
    calc (tileY0 W T tidx + ly) * W + (tileX0 W T tidx + lx)
        ≤ (H - 1) * W + (tileX0 W T tidx + lx) := Nat.add_le_add_right hm1 _
      _ ≤ (H - 1) * W + (W - 1) := Nat.add_le_add_left hcol _
      _ < (H - 1) * W + W := Nat.add_lt_add_left (by omega) _
      _ = (H - 1 + 1) * W := by ring
      _ = H * W := by rw [Nat.sub_add_cancel hH1]
      _ = W * H := Nat.mul_comm _ _

/-- Witness for C1: a single prepared full-screen triangle at depth 0 on a
4×4 framebuffer, observed at pixel (0,0). -/
theorem c1_witness :
    (0 : ℕ) < 1 ∧
    (Framebuffer.mk 4 4 (List.replicate 16 bgColor)
      (List.replicate 16 maxDepth)).wf ∧
    acceptedDepths [prepare_triangle 4 4
      ![⟨-1, 1, 0, 1⟩, ⟨1, 1, 0, 1⟩, ⟨-1, -1, 0, 1⟩]
      ![⟨0, 0⟩, ⟨0, 0⟩, ⟨0, 0⟩]
      ![⟨0, 1, 0⟩, ⟨0, 1, 0⟩, ⟨0, 1, 0⟩]] 0 0 ≠ [] ∧
    (render_tiled id none 1
        [prepare_triangle 4 4
          ![⟨-1, 1, 0, 1⟩, ⟨1, 1, 0, 1⟩, ⟨-1, -1, 0, 1⟩]
          ![⟨0, 0⟩, ⟨0, 0⟩, ⟨0, 0⟩]
          ![⟨0, 1, 0⟩, ⟨0, 1, 0⟩, ⟨0, 1, 0⟩]]
        (Framebuffer.mk 4 4 (List.replicate 16 bgColor)
          (List.replicate 16 maxDepth))).depth_buffer.getD 0 0 ∈
      acceptedDepths [prepare_triangle 4 4
        ![⟨-1, 1, 0, 1⟩, ⟨1, 1, 0, 1⟩, ⟨-1, -1, 0, 1⟩]
        ![⟨0, 0⟩, ⟨0, 0⟩, ⟨0, 0⟩]
        ![⟨0, 1, 0⟩, ⟨0, 1, 0⟩, ⟨0, 1, 0⟩]] 0 0 := by
  have hacc : acceptsFrag (prepare_triangle 4 4
      ![⟨-1, 1, 0, 1⟩, ⟨1, 1, 0, 1⟩, ⟨-1, -1, 0, 1⟩]
      ![⟨0, 0⟩, ⟨0, 0⟩, ⟨0, 0⟩]
      ![⟨0, 1, 0⟩, ⟨0, 1, 0⟩, ⟨0, 1, 0⟩]) 0 0 := by
    norm_num [acceptsFrag, covers, fragW0, fragW1, fragW2, fragDepth,
      fragB0, fragB1, fragB2, prepare_triangle, toScreen, edgeFn, pixCenter,
      Matrix.cons_val_zero, Matrix.cons_val_one, Matrix.head_cons,
      Matrix.cons_val_two, Matrix.tail_cons]
  have hne : acceptedDepths [prepare_triangle 4 4
      ![⟨-1, 1, 0, 1⟩, ⟨1, 1, 0, 1⟩, ⟨-1, -1, 0, 1⟩]
      ![⟨0, 0⟩, ⟨0, 0⟩, ⟨0, 0⟩]
      ![⟨0, 1, 0⟩, ⟨0, 1, 0⟩, ⟨0, 1, 0⟩]] 0 0 ≠ [] := by
    simp [acceptedDepths, List.filter_cons, hacc]
  refine ⟨by decide, by decide, hne, ?_⟩
  have := (c1_depth_minimum id none 1
    [prepare_triangle 4 4
      ![⟨-1, 1, 0, 1⟩, ⟨1, 1, 0, 1⟩, ⟨-1, -1, 0, 1⟩]
      ![⟨0, 0⟩, ⟨0, 0⟩, ⟨0, 0⟩]
      ![⟨0, 1, 0⟩, ⟨0, 1, 0⟩, ⟨0, 1, 0⟩]]
    (Framebuffer.mk 4 4 (List.replicate 16 bgColor)
      (List.replicate 16 maxDepth)) 0 0
    (by decide) (by decide) (by decide) (by decide)
    (fun tri h => ⟨![⟨-1, 1, 0, 1⟩, ⟨1, 1, 0, 1⟩, ⟨-1, -1, 0, 1⟩],
      ![⟨0, 0⟩, ⟨0, 0⟩, ⟨0, 0⟩], ![⟨0, 1, 0⟩, ⟨0, 1, 0⟩, ⟨0, 1, 0⟩],
      List.mem_singleton.mp h⟩) hne).1.1
  simpa using this

/-- Witness for C3 at a 1×1 framebuffer with tile size 1. -/
theorem c3_witness :
    (0 : ℕ) < 1 ∧ (0 : ℕ) < numTiles 1 1 1 ∧
    (tileX0 1 1 0 ≤ tileX1 1 1 0 ∧ tileX1 1 1 0 < 1 ∧
      tileY0 1 1 0 ≤ tileY1 1 1 1 0 ∧ tileY1 1 1 1 0 < 1) :=
  ⟨by decide, by decide,
    (c3_no_out_of_bounds_writes 1 1 1 0 (by decide) (by decide)).1⟩

/-- Witness for the skip clause of C4 at a concrete invalid triangle. -/
theorem c4_witness :
    (ScreenTriangle.mk (fun _ => ⟨0, 0, 0⟩) (fun _ => ⟨0, 0, 0, 1⟩)
        (fun _ => ⟨0, 0⟩) (fun _ => ⟨0, 1, 0⟩) 0 0 0 0 0 false).valid = false ∧
    rasterize_triangle_in_tile id none
      (ScreenTriangle.mk (fun _ => ⟨0, 0, 0⟩) (fun _ => ⟨0, 0, 0, 1⟩)
        (fun _ => ⟨0, 0⟩) (fun _ => ⟨0, 1, 0⟩) 0 0 0 0 0 false)
      0 0 3 3 4 initTileBuf = initTileBuf :=
  ⟨rfl,
    (c4_invalid_iff_and_skipped 1 1 (fun _ => ⟨0, 0, 0, 1⟩) (fun _ => ⟨0, 0⟩)
      (fun _ => ⟨0, 1, 0⟩)).2 id none _ 0 0 3 3 4 initTileBuf rfl⟩

end CliRasterizer
